import Mathlib

/-!
Verification of the IRA Ranker core (`src/ranker.py`).

The Python module is shallowly embedded: strings are `String`/`List Char`,
Python floats are modelled as exact real numbers (`ℝ`), timestamps as
rational POSIX seconds together with their timezone-awareness flag, and the
regular-expression substitutions of `_norm_text` are implemented as
deterministic scanners that mirror the behaviour of `re.sub` on the four
patterns the source compiles.  Steps of the pipeline that can raise a
Python exception (the naive/aware datetime subtraction in `reasons_for`,
and the tuple comparison inside the dedup sort) are modelled with `Option`:
`none` is an uncaught exception.
-/

set_option linter.unusedVariables false

namespace IRA

open List

/-! ### Character classes (ASCII model of the `str` methods and `re` classes) -/

/-- Python whitespace for `str.strip` and the regex class `\s` (ASCII range). -/
def pyWhite (c : Char) : Bool :=
  c = ' ' || c = '\t' || c = '\n' || c = '\r' || c = '\x0b' || c = '\x0c'

/-- The regex word class `\w` (ASCII range): letters, digits and underscore. -/
def isWordChar (c : Char) : Bool :=
  c.isAlpha || c.isDigit || c = '_'

/-- The 26 upper/lower case pairs of `str.lower` (ASCII range). -/
def lowerPairs : List (Char × Char) :=
  [('A','a'),('B','b'),('C','c'),('D','d'),('E','e'),('F','f'),('G','g'),
   ('H','h'),('I','i'),('J','j'),('K','k'),('L','l'),('M','m'),('N','n'),
   ('O','o'),('P','p'),('Q','q'),('R','r'),('S','s'),('T','t'),('U','u'),
   ('V','v'),('W','w'),('X','x'),('Y','y'),('Z','z')]

/-- `str.lower`, one character. -/
def pyLower (c : Char) : Char :=
  (lowerPairs.lookup c).getD c

/-- `str.strip`: drop leading and trailing whitespace. -/
def stripChars (l : List Char) : List Char :=
  ((l.dropWhile pyWhite).reverse.dropWhile pyWhite).reverse

/-! ### The four substitutions of `_norm_text`

Each scanner walks the original string left to right; a matcher returns
`some e` when a match of length `e + 1` starts at the current position, and
the scanner then emits the replacement and resumes after the match, exactly
as `re.sub` does (replacements never take part in later matching).  The
scanners are written with a skip counter — "the next `skip` characters were
already consumed by the current match" — to stay structurally recursive. -/

/-- Matcher for `_PLACEHOLDER_RE = <[^>]{1,32}>`: at a `<`, the match closes at
the first `>` provided 1 to 32 non-`>` characters lie between. -/
def phM : List Char → Option Nat
  | [] => none
  | c :: rest =>
      if c = '<' then
        let d := rest.findIdx (· = '>')
        if d < rest.length ∧ 1 ≤ d ∧ d ≤ 32 then some (d + 1) else none
      else none

/-- Scanner of `_PLACEHOLDER_RE.sub("<x>", s)`. -/
def phGo : Nat → List Char → List Char
  | _, [] => []
  | skip+1, _ :: cs => phGo skip cs
  | 0, c :: cs =>
      match phM (c :: cs) with
      | some e => '<' :: 'x' :: '>' :: phGo e cs
      | none => c :: phGo 0 cs

/-- `_PLACEHOLDER_RE.sub("<x>", s)`. -/
def phSub (l : List Char) : List Char :=
  phGo 0 l

/-- `\b` at the end of a match: the next character is absent or a non-word. -/
def boundaryAfter (l : List Char) : Bool :=
  match l.head? with
  | none => true
  | some c => !(isWordChar c)

/-- Matcher for `_NUM_RE = \b\d+(?:\.\d+)?\b` with the backtracking of `re`
resolved: at a digit preceded by a word boundary, the whole digit run is
taken; a fractional part is taken only when it is a full digit run followed
by a word boundary, otherwise the match falls back to the integer part
(whose trailing boundary at the `.` always holds).  `prev` is the character
of the original string just before the current position. -/
def numMAt : List Char → Option Nat
  | [] => none
  | c :: cs =>
      if c.isDigit then
        let L := ((c :: cs).takeWhile Char.isDigit).length
        match (c :: cs).drop L with
        | [] => some (L - 1)
        | d :: r2 =>
            if d = '.' then
              let M := (r2.takeWhile Char.isDigit).length
              if 0 < M ∧ boundaryAfter (r2.drop M) then some (L + M) else some (L - 1)
            else if boundaryAfter (d :: r2) then some (L - 1) else none
      else none

/-- `\b` before the match position, then `numMAt`. -/
def numM (prev : Option Char) (l : List Char) : Option Nat :=
  match prev with
  | some p => if isWordChar p then none else numMAt l
  | none => numMAt l

/-- Scanner of `_NUM_RE.sub("<n>", s)`, tracking the previous original
character for the word boundaries. -/
def numGo : Nat → Option Char → List Char → List Char
  | _, _, [] => []
  | skip+1, _, c :: cs => numGo skip (some c) cs
  | 0, prev, c :: cs =>
      match numM prev (c :: cs) with
      | some e => '<' :: 'n' :: '>' :: numGo e (some c) cs
      | none => c :: numGo 0 (some c) cs

/-- `_NUM_RE.sub("<n>", s)`. -/
def numSub (l : List Char) : List Char :=
  numGo 0 none l

/-- Matcher for the POSIX alternative `/(?:[^\s/]+/)+[^\s]+` of `_PATH_RE`:
at a `/`, let the run be the maximal non-whitespace stretch after it; the
regex matches (the `/` plus the whole run, greedily) iff the run starts with
a non-`/` segment character, contains a `/`, and at least one more character
follows that first `/`. -/
def posixM : List Char → Option Nat
  | [] => none
  | c :: rest =>
      if c = '/' then
        let R := (rest.takeWhile (fun d => !pyWhite d)).length
        let run := rest.take R
        match run with
        | [] => none
        | r0 :: _ =>
            if r0 = '/' then none
            else
              let p := run.findIdx (· = '/')
              if p < R ∧ p + 1 < R then some R else none
      else none

/-- Matcher for `_PATH_RE = ([A-Za-z]:\\\\[^\s]+|/(?:[^\s/]+/)+[^\s]+)`: the
Windows alternative (letter, colon, two literal backslashes, a non-space
run) is tried first, then the POSIX alternative. -/
def pathM (l : List Char) : Option Nat :=
  match l with
  | a :: b :: c :: d :: rest =>
      if a.isAlpha ∧ b = ':' ∧ c = '\\' ∧ d = '\\' then
        let N := (rest.takeWhile (fun e => !pyWhite e)).length
        if 0 < N then some (3 + N) else posixM l
      else posixM l
  | _ => posixM l

/-- Scanner of `_PATH_RE.sub("<p>", s)`. -/
def pathGo : Nat → List Char → List Char
  | _, [] => []
  | skip+1, _ :: cs => pathGo skip cs
  | 0, c :: cs =>
      match pathM (c :: cs) with
      | some e => '<' :: 'p' :: '>' :: pathGo e cs
      | none => c :: pathGo 0 cs

/-- `_PATH_RE.sub("<p>", s)`. -/
def pathSub (l : List Char) : List Char :=
  pathGo 0 l

/-- Scanner of `_WHITESPACE_RE.sub(" ", s)`: each maximal whitespace run
becomes one space; the flag says whether the scanner stands inside a run
whose space was already emitted. -/
def wsGo : Bool → List Char → List Char
  | _, [] => []
  | inWs, c :: cs =>
      if pyWhite c then
        if inWs then wsGo true cs else ' ' :: wsGo true cs
      else c :: wsGo false cs

/-- `_WHITESPACE_RE.sub(" ", s)`. -/
def wsCollapse (l : List Char) : List Char :=
  wsGo false l

/-- `_norm_text` on character lists: strip, lower, the three maskings, then
whitespace collapse, in the order of the source. -/
def normChars (l : List Char) : List Char :=
  wsCollapse (pathSub (numSub (phSub ((stripChars l).map pyLower))))

/-- `_norm_text(s)`: normalize skeleton-like strings for robust comparison. -/
def norm_text (s : String) : String :=
  ⟨normChars s.data⟩

/-- Count of maximal runs matching `[a-zA-Z_]+` (the `re.findall` of
`skeleton_informative`); the flag says whether the scanner stands inside a
run already counted. -/
def alphaRunGo : Bool → List Char → Nat
  | _, [] => 0
  | inRun, c :: cs =>
      if c.isAlpha || c = '_' then
        (if inRun then 0 else 1) + alphaRunGo true cs
      else alphaRunGo false cs

/-- `skeleton_informative(s)`: the hard filter applies only when the
normalized skeleton has at least 4 alphabetic-word tokens. -/
def skeleton_informative (s : String) : Bool :=
  4 ≤ alphaRunGo false (norm_text s).data

/-! ### `difflib.SequenceMatcher` ratio (used by `skeleton_similarity`)

Faithful model of CPython's `difflib` with `isjunk=None`: the junk set is
empty (so the junk extension loops of `find_longest_match` never run), and
`autojunk` drops an element of `b` from `b2j` when `len(b) >= 200` and the
element fills more than one percent of `b`. -/

/-- The position list `b2j[c]`, with the autojunk rule applied. -/
def b2jGet (b : List Char) (c : Char) : List Nat :=
  let pos := (List.range b.length).filter fun j => b.getD j ' ' == c
  if 200 ≤ b.length ∧ b.length / 100 + 1 < pos.length then [] else pos

/-- One row of the `find_longest_match` dynamic program: `i` fixed, the
in-window positions `js` of `a[i]` in `b` ascending; returns the new
`j2len` row and the updated `(besti, bestj, bestsize)` (strict improvement
only, so the lowest `i`, then the lowest `j`, wins ties). -/
def flmRow (i : Nat) (js : List Nat) (j2len : List (Nat × Nat)) (best : Nat × Nat × Nat) :
    List (Nat × Nat) × (Nat × Nat × Nat) :=
  js.foldl
    (fun acc j =>
      let k := (if j = 0 then 0 else (j2len.lookup (j - 1)).getD 0) + 1
      let b' := if acc.2.2.2 < k then (i + 1 - k, j + 1 - k, k) else acc.2
      (acc.1 ++ [(j, k)], b'))
    ([], best)

/-- The main loop of `find_longest_match` over `i` in `[alo, ahi)`. -/
def flmMain (a b : List Char) (alo ahi blo bhi : Nat) : Nat × Nat × Nat :=
  ((List.range' alo (ahi - alo)).foldl
      (fun acc i =>
        let js := (b2jGet b (a.getD i ' ')).filter fun j => decide (blo ≤ j) && decide (j < bhi)
        flmRow i js acc.1 acc.2)
      ([], (alo, blo, 0))).2

/-- The left extension loop of `find_longest_match` (`isbjunk` is constantly
false with `isjunk=None`).  `fuel` bounds the iterations; `besti` decreases
each step so `besti` itself is enough fuel. -/
def extLeft (a b : List Char) (alo blo : Nat) : Nat → Nat × Nat × Nat → Nat × Nat × Nat
  | 0, s => s
  | fuel+1, (i, j, k) =>
      if alo < i ∧ blo < j ∧ a.getD (i-1) ' ' = b.getD (j-1) ' ' then
        extLeft a b alo blo fuel (i-1, j-1, k+1)
      else (i, j, k)

/-- The right extension loop of `find_longest_match`. -/
def extRight (a b : List Char) (ahi bhi : Nat) : Nat → Nat × Nat × Nat → Nat × Nat × Nat
  | 0, s => s
  | fuel+1, (i, j, k) =>
      if i + k < ahi ∧ j + k < bhi ∧ a.getD (i+k) ' ' = b.getD (j+k) ' ' then
        extRight a b ahi bhi fuel (i, j, k+1)
      else (i, j, k)

/-- `find_longest_match(alo, ahi, blo, bhi)`. -/
def find_longest_match (a b : List Char) (alo ahi blo bhi : Nat) : Nat × Nat × Nat :=
  let s := flmMain a b alo ahi blo bhi
  let s := extLeft a b alo blo s.1 s
  extRight a b ahi bhi ahi s

/-- Total size of the matching blocks of `get_matching_blocks`, by the same
divide-and-conquer recursion; `fuel` bounds the depth, and the initial
window perimeter plus one is always enough, since both subwindows of a
non-empty match are strictly smaller. -/
def matchTotal (a b : List Char) : Nat → Nat → Nat → Nat → Nat → Nat
  | 0, _, _, _, _ => 0
  | fuel+1, alo, ahi, blo, bhi =>
      match find_longest_match a b alo ahi blo bhi with
      | (i, j, k) =>
          if k = 0 then 0
          else matchTotal a b fuel alo i blo j + k + matchTotal a b fuel (i+k) ahi (j+k) bhi

/-- `SequenceMatcher(None, a, b).ratio()` as an exact rational:
`2 * matches / (len(a) + len(b))`, and 1 when both are empty. -/
def ratioQ (a b : List Char) : ℚ :=
  let T := a.length + b.length
  if T = 0 then 1
  else (2 * matchTotal a b (T + 1) 0 a.length 0 b.length : ℚ) / T

/-- `skeleton_similarity(a, b)`: exact match of the normalized strings gives
1.0, otherwise the fuzzy `SequenceMatcher` ratio on them. -/
noncomputable def skeleton_similarity (a b : String) : ℝ :=
  let a_n := norm_text a
  let b_n := norm_text b
  if a_n = b_n then 1 else ((ratioQ a_n.data b_n.data : ℚ) : ℝ)

/-- `jaccard(a, b)` on the underlying sets, 0 when both are empty. -/
noncomputable def jaccard (a b : List String) : ℝ :=
  if a = [] ∧ b = [] then 0
  else
    let inter := (a.eraseDups.filter fun x => b.contains x).length
    let union := ((a ++ b).eraseDups).length
    if union = 0 then 0 else (inter : ℝ) / union

/-- Digits to a number (the `int()` of a regex group). -/
def natOfDigits (l : List Char) : Nat :=
  l.foldl (fun n c => 10 * n + (c.toNat - 48)) 0

/-- `parse_pyver(v)`: the leading `^\s*(\d+)\.(\d+)` of the version string,
`(0, 0)` when it does not match. -/
def parse_pyver (v : String) : Nat × Nat :=
  let t := v.data.dropWhile pyWhite
  let d1 := t.takeWhile Char.isDigit
  if d1 = [] then (0, 0)
  else
    match t.drop d1.length with
    | '.' :: r =>
        let d2 := r.takeWhile Char.isDigit
        if d2 = [] then (0, 0) else (natOfDigits d1, natOfDigits d2)
    | _ => (0, 0)

/-! ### Data model

`PyTime` models `datetime`: the clock reading as POSIX seconds (naive
readings are the wall clock taken as UTC, which is exactly the
`replace(tzinfo=timezone.utc)` fixup of the source) plus the awareness
flag.  Mixing a naive and an aware value in arithmetic or comparison raises
`TypeError` in Python. -/

structure PyTime where
  sec : ℚ
  aware : Bool
deriving DecidableEq

/-- `a - b` of two datetimes, in seconds; `none` is the `TypeError` on mixed
naive/aware operands. -/
def tsub (a b : PyTime) : Option ℚ :=
  if a.aware = b.aware then some (a.sec - b.sec) else none

structure RankParams where
  k : ℤ
  mmr_lambda : ℝ
  confidence_floor : ℝ
  recency_half_life_days : ℝ
  skeleton_filter_threshold : ℝ
  allow_repeat_depth : ℤ
  allow_repeat_min_hours : ℝ
  success_bonus_alpha : ℝ

structure QueryContext where
  student_id : String
  pemType : String
  pemSkeleton : String
  timestamp : PyTime
  activeFile_hash : String
  workingDirectory_hash : String
  directoryTree : List String
  packages : List String
  pythonVersion : String
  resolutionDepth : Option ℤ

structure Candidate where
  id : String
  vector_similarity : ℝ
  pemSkeleton : String
  timestamp : PyTime
  activeFile_hash : String
  workingDirectory_hash : String
  directoryTree : List String
  packages : List String
  pythonVersion : String
  resolutionDepth : Option ℤ

structure RankRequest where
  params : RankParams
  query : QueryContext
  candidates : List Candidate

/-- The `Dict[str, float]` over the seven feature channels. -/
structure FeatureMap where
  skeleton : ℝ
  vector : ℝ
  recency : ℝ
  project : ℝ
  file : ℝ
  packages : ℝ
  pyver : ℝ

structure Scored where
  id : String
  features : FeatureMap
  score : ℝ
  cand : Candidate

structure RankedItem where
  id : String
  score : ℝ
  features : FeatureMap
  reasons : List String

structure RankResponse where
  abstain : Bool
  reason : Option String
  best : Option RankedItem
  alternates : List RankedItem

/-! ### Feature extractors -/

/-- `recency_score(now, then, half_life_days) = 0.5 ** (delta_days /
max(1e-6, half_life))` with `delta_days = max(0, (now - then) in days)`;
both operands are coerced to UTC first, so the subtraction is total. -/
noncomputable def recency_score (now t : PyTime) (half_life_days : ℝ) : ℝ :=
  let delta_days : ℝ := max 0 (((now.sec - t.sec : ℚ) : ℝ) / 86400)
  (0.5 : ℝ) ^ (delta_days / max 1e-6 half_life_days)

/-- `hours_between(now, then)`, both operands coerced to UTC first. -/
noncomputable def hours_between (now t : PyTime) : ℝ :=
  ((now.sec - t.sec : ℚ) : ℝ) / 3600

/-- `pyver_proximity(qv, cv)`. -/
noncomputable def pyver_proximity (qv cv : String) : ℝ :=
  let q := parse_pyver qv
  let c := parse_pyver cv
  if q.1 = c.1 ∧ q.2 = c.2 then 1
  else if q.1 = c.1 then 0.8
  else 0.6

/-- `file_affinity`: 1.0 iff the active-file hashes are equal. -/
noncomputable def file_affinity (query : QueryContext) (cand : Candidate) : ℝ :=
  if cand.activeFile_hash = query.activeFile_hash then 1 else 0

/-- `project_fingerprint`: 1.0 on a working-directory match, else the
Jaccard overlap of the directory trees. -/
noncomputable def project_fingerprint (query : QueryContext) (cand : Candidate) : ℝ :=
  if cand.workingDirectory_hash = query.workingDirectory_hash then 1
  else jaccard query.directoryTree cand.directoryTree

/-- `package_overlap`. -/
noncomputable def package_overlap (query : QueryContext) (cand : Candidate) : ℝ :=
  jaccard query.packages cand.packages

/-- `depth_to_success`: missing and 0 map to 0.0, 1 to 0.5, 2 or more to 1.0. -/
noncomputable def depth_to_success (depth : Option ℤ) : ℝ :=
  match depth with
  | none => 0
  | some d => if 2 ≤ d then 1 else if d = 1 then 0.5 else 0

/-! ### Scoring -/

/-- The fixed `BASE_WEIGHTS` of the source. -/
noncomputable def BASE_WEIGHTS : FeatureMap :=
  ⟨0.40, 0.35, 0.10, 0.07, 0.03, 0.03, 0.02⟩

/-- `reliability_multipliers(features, query, cand)`. -/
noncomputable def reliability_multipliers (features : FeatureMap) (query : QueryContext)
    (cand : Candidate) : FeatureMap :=
  let s := features.skeleton
  let rsk : ℝ :=
    if 0.999 ≤ s then 1.4
    else if 0.9 ≤ s then 1.2
    else if 0.8 ≤ s then 1.0
    else if 0.6 ≤ s then 0.7
    else 0.5
  let rpr : ℝ :=
    if cand.workingDirectory_hash = query.workingDirectory_hash ∨ 0.5 ≤ features.project
    then 1.2 else 0.9
  ⟨rsk, 1, 1, rpr, 1, 1, 1⟩

/-- `renorm(weights)`: clip at 0 and normalize to sum 1; uniform `1/7` when
the clipped sum is not positive. -/
noncomputable def renorm (w : FeatureMap) : FeatureMap :=
  let s := max 0 w.skeleton + max 0 w.vector + max 0 w.recency + max 0 w.project
            + max 0 w.file + max 0 w.packages + max 0 w.pyver
  if s ≤ 0 then ⟨1/7, 1/7, 1/7, 1/7, 1/7, 1/7, 1/7⟩
  else ⟨max 0 w.skeleton / s, max 0 w.vector / s, max 0 w.recency / s, max 0 w.project / s,
        max 0 w.file / s, max 0 w.packages / s, max 0 w.pyver / s⟩

/-- `compute_features(query, cand, params)`. -/
noncomputable def compute_features (query : QueryContext) (cand : Candidate)
    (params : RankParams) : FeatureMap where
  skeleton := skeleton_similarity query.pemSkeleton cand.pemSkeleton
  vector := max 0 (min 1 cand.vector_similarity)
  recency := recency_score query.timestamp cand.timestamp params.recency_half_life_days
  project := project_fingerprint query cand
  file := file_affinity query cand
  packages := package_overlap query cand
  pyver := pyver_proximity query.pythonVersion cand.pythonVersion

/-- `score_candidate(query, cand, params)`: the hard skeleton filter gives
the sentinel score -1; otherwise the renormalized adaptive weights, the
success bonus and the clamp to [0, 1]. -/
noncomputable def score_candidate (query : QueryContext) (cand : Candidate)
    (params : RankParams) : Scored :=
  let f := compute_features query cand params
  if f.skeleton < params.skeleton_filter_threshold ∧ skeleton_informative query.pemSkeleton then
    ⟨cand.id, f, -1, cand⟩
  else
    let r := reliability_multipliers f query cand
    let wprime := renorm ⟨BASE_WEIGHTS.skeleton * r.skeleton, BASE_WEIGHTS.vector * r.vector,
      BASE_WEIGHTS.recency * r.recency, BASE_WEIGHTS.project * r.project,
      BASE_WEIGHTS.file * r.file, BASE_WEIGHTS.packages * r.packages,
      BASE_WEIGHTS.pyver * r.pyver⟩
    let base := wprime.skeleton * f.skeleton + wprime.vector * f.vector
      + wprime.recency * f.recency + wprime.project * f.project
      + wprime.file * f.file + wprime.packages * f.packages + wprime.pyver * f.pyver
    let success := depth_to_success cand.resolutionDepth
    ⟨cand.id, f, max 0 (min 1 (base + params.success_bonus_alpha * success)), cand⟩

/-! ### Properties of the text normalizer -/

/-- No character of the list can take part in a masking: no `<`, no digit,
no `/`, no `\`. -/
def maskFree (l : List Char) : Bool :=
  l.all fun c => !(c = '<' || c.isDigit || c = '/' || c = '\\')

/-- Neither end of the list is whitespace. -/
def NoEdgeWs (l : List Char) : Prop :=
  (∀ c, l.head? = some c → pyWhite c = false) ∧
  (∀ c, l.getLast? = some c → pyWhite c = false)

/-! ### Sorting

`list.sort(key=K, reverse=True)` in Python is a stable descending sort:
elements with equal keys keep their original relative order.  Insertion
from the left into the already-sorted prefix — each element is placed
before the first strictly smaller one — produces exactly that order. -/

/-- Insert `x` into a descending-sorted list, after every element not
strictly below it. -/
def insertDesc (lt : α → α → Prop) [DecidableRel lt] (x : α) : List α → List α
  | [] => [x]
  | y :: ys => if lt y x then x :: y :: ys else y :: insertDesc lt x ys

/-- Stable descending sort by the strict comparison `lt`. -/
def sortDesc (lt : α → α → Prop) [DecidableRel lt] (l : List α) : List α :=
  l.foldl (fun acc x => insertDesc lt x acc) []

/-- Strictly-less-than on the sort key `s.score` (the final sorts). -/
def scoreLt (a b : Scored) : Prop := a.score < b.score

noncomputable instance : DecidableRel scoreLt := fun a b =>
  inferInstanceAs (Decidable (a.score < b.score))

/-- Strictly-less-than on the sort key `(s.score, s.cand.timestamp)` of the
dedup-group sort.  Timestamps are compared by their seconds; Python would
raise comparing a naive with an aware timestamp at a score tie, which
`rank` guards with `tiesOK`. -/
def ltLexScored (a b : Scored) : Prop :=
  a.score < b.score ∨ (a.score = b.score ∧ a.cand.timestamp.sec < b.cand.timestamp.sec)

noncomputable instance : DecidableRel ltLexScored := fun a b =>
  inferInstanceAs (Decidable (_ ∨ _))

/-! ### Duplicate suppression -/

/-- `_dedup_key(cand) = (_norm_text(cand.pemSkeleton), cand.activeFile_hash
or "")`; the Python `or` yields `""` exactly when the hash is the empty
(falsy) string. -/
def dedup_key (cand : Candidate) : String × String :=
  (norm_text cand.pemSkeleton, if cand.activeFile_hash = "" then "" else cand.activeFile_hash)

/-- The dict `groups`: append `s` to the list of its key, keys kept in
first-insertion order as Python dicts do. -/
def addToGroups (g : List ((String × String) × List Scored)) (key : String × String)
    (s : Scored) : List ((String × String) × List Scored) :=
  match g with
  | [] => [(key, [s])]
  | (k, items) :: rest =>
      if k = key then (k, items ++ [s]) :: rest else (k, items) :: addToGroups rest key s

/-- `groups.setdefault(_dedup_key(s.cand), []).append(s)` over the list. -/
def groupsOf (l : List Scored) : List ((String × String) × List Scored) :=
  l.foldl (fun g s => addToGroups g (dedup_key s.cand) s) []

/-- The allowed-repeat test of `dedup_scored`: a non-null `resolutionDepth`
at least `allow_repeat_depth`, and at least `allow_repeat_min_hours` older
than the primary. -/
noncomputable def allowedB (params : RankParams) (primary s : Scored) : Bool :=
  match s.cand.resolutionDepth with
  | none => false
  | some d =>
      decide (params.allow_repeat_depth ≤ d) &&
      decide (params.allow_repeat_min_hours ≤
        hours_between primary.cand.timestamp s.cand.timestamp)

/-- One group of `dedup_scored`: sort by `(score, timestamp)` descending,
keep the head as primary plus the first allowed repeat of the tail. -/
noncomputable def keepOf (params : RankParams) (items : List Scored) : List Scored :=
  match sortDesc ltLexScored items with
  | [] => []
  | primary :: rest => primary :: (rest.find? (allowedB params primary)).toList

/-- `dedup_scored(scored, query, params)` (`query` is unused in the source
too): drop sentinel scores, group by `_dedup_key`, keep primary and at most
one allowed repeat per group, sort by score descending. -/
noncomputable def dedup_scored (scored : List Scored) (query : QueryContext)
    (params : RankParams) : List Scored :=
  let nonneg := scored.filter fun s => !decide (s.score < 0)
  let groups := groupsOf nonneg
  sortDesc scoreLt ((groups.map fun g => keepOf params g.2).flatten)

/-- No dedup group holds two items with equal scores and different
timezone awareness.  Python's group sort compares `(score, timestamp)`
tuples, which raises `TypeError` on a naive/aware pair at a score tie;
which tied pairs Timsort actually compares depends on its internals, so
this predicate over-approximates the raising inputs (it is exact for
groups of at most two items). -/
def tiesOK (groups : List ((String × String) × List Scored)) : Prop :=
  ∀ g ∈ groups, ∀ a ∈ g.2, ∀ b ∈ g.2,
    a.score = b.score → a.cand.timestamp.aware = b.cand.timestamp.aware

noncomputable instance : DecidablePred tiesOK := fun _ =>
  inferInstanceAs (Decidable (∀ _ ∈ _, _))

/-! ### Diversity (MMR) -/

/-- `candidate_similarity(a, b)`: same non-empty file hash 1.0, same
normalized skeleton 0.8, else package Jaccard. -/
noncomputable def candidate_similarity (a b : Scored) : ℝ :=
  if a.cand.activeFile_hash ≠ "" ∧ b.cand.activeFile_hash ≠ "" ∧
      a.cand.activeFile_hash = b.cand.activeFile_hash then 1
  else if norm_text a.cand.pemSkeleton = norm_text b.cand.pemSkeleton then 0.8
  else jaccard a.cand.packages b.cand.packages

/-- `max(candidate_similarity(s, t) for t in selected)` (0 when empty,
though `mmr_select` only evaluates it on non-empty `selected`). -/
noncomputable def maxSimTo (s : Scored) (selected : List Scored) : ℝ :=
  match selected with
  | [] => 0
  | t :: ts => ts.foldl (fun m t' => max m (candidate_similarity s t')) (candidate_similarity s t)

/-- The MMR objective `lamb * score - (1 - lamb) * max similarity`. -/
noncomputable def mmrVal (lamb : ℝ) (selected : List Scored) (s : Scored) : ℝ :=
  lamb * s.score - (1 - lamb) * maxSimTo s selected

/-- The argmax loop of `mmr_select`: first index whose value strictly beats
the best so far, starting from `(0, -1e9)`. -/
noncomputable def argmaxAux (lamb : ℝ) (selected remaining : List Scored) : Nat × ℝ :=
  remaining.enum.foldl
    (fun acc p =>
      let v := mmrVal lamb selected p.2
      if acc.2 < v then (p.1, v) else acc)
    (0, -1000000000)

/-- `remaining.pop(i)`: the popped element and the remainder. -/
def popAt : List α → Nat → Option (α × List α)
  | [], _ => none
  | x :: xs, 0 => some (x, xs)
  | x :: xs, n+1 => (popAt xs n).map fun p => (p.1, x :: p.2)

/-- The greedy MMR loop; `fuel` bounds the iterations and the initial
length of `remaining` is always enough since every pass pops one element.
The `none` branch of `popAt` cannot run (the argmax index is in range). -/
noncomputable def mmr_go (lamb : ℝ) (k : ℤ) : Nat → List Scored → List Scored → List Scored
  | _, selected, [] => selected
  | 0, selected, _ :: _ => selected
  | fuel+1, selected, r :: rs =>
      if (selected.length : ℤ) < k then
        match selected with
        | [] => mmr_go lamb k fuel [r] rs
        | _ :: _ =>
          match popAt (r :: rs) (argmaxAux lamb selected (r :: rs)).1 with
          | some (x, rest) => mmr_go lamb k fuel (selected ++ [x]) rest
          | none => selected
      else selected

/-- `mmr_select(scored, k, lamb)`. -/
noncomputable def mmr_select (scored : List Scored) (k : ℤ) (lamb : ℝ) : List Scored :=
  if k ≤ 0 then []
  else
    match scored with
    | [] => []
    | _ :: _ => mmr_go lamb k scored.length [] scored

/-! ### Reasons and the public entrypoint -/

/-- `round(x, 6)`.  Python rounds the underlying binary float half to even;
the model rounds the exact real to the nearest multiple of `1e-6` (no
claim depends on the direction of a tie). -/
noncomputable def round6 (x : ℝ) : ℝ :=
  ((round (x * 1000000) : ℤ) : ℝ) / 1000000

/-- The per-entry rounding of the emitted feature dict. -/
noncomputable def roundFM (f : FeatureMap) : FeatureMap :=
  ⟨round6 f.skeleton, round6 f.vector, round6 f.recency, round6 f.project,
   round6 f.file, round6 f.packages, round6 f.pyver⟩

/-- `reasons_for(s)` of the source: the tag list, or `none` for the
`TypeError` that `query.timestamp - s.cand.timestamp` raises when one
operand is naive and the other aware (this subtraction has no UTC fixup in
the source).  `days = max(0, int(total_seconds() // 86400))`. -/
noncomputable def reasons_for (query : QueryContext) (s : Scored) : Option (List String) :=
  match tsub query.timestamp s.cand.timestamp with
  | none => none
  | some dt =>
      let skel : List String :=
        if (0.999 : ℝ) ≤ s.features.skeleton then ["signature match"]
        else if (0.8 : ℝ) ≤ s.features.skeleton then ["signature similar"]
        else []
      let fil : List String :=
        if (0.999 : ℝ) ≤ s.features.file then ["same file"]
        else if (0.25 : ℝ) ≤ s.features.file ∧ s.features.file < 0.999 then ["same filetype"]
        else []
      let pkg : List String := if (0 : ℝ) < s.features.packages then ["package overlap"] else []
      let days : ℤ := max 0 ⌊dt / 86400⌋
      let succ : List String :=
        if (0.5 : ℝ) ≤ depth_to_success s.cand.resolutionDepth then ["success before"] else []
      some (skel ++ fil ++ pkg ++ ["recent: " ++ toString days ++ "d"] ++ succ)

/-- One output `RankedItem`: id, six-digit-rounded score and features, and
the reasons (propagating the possible `TypeError`). -/
noncomputable def mkRankedItem (query : QueryContext) (s : Scored) : Option RankedItem :=
  (reasons_for query s).map fun rs => ⟨s.id, round6 s.score, roundFM s.features, rs⟩

/-- The list comprehension building `ranked_items`: first raise wins. -/
def mapOption (f : α → Option β) : List α → Option (List β)
  | [] => some []
  | x :: xs =>
      match f x, mapOption f xs with
      | some y, some ys => some (y :: ys)
      | _, _ => none

/-- `[score_candidate(query, c, params) for c in cands]`. -/
noncomputable def scoredOf (req : RankRequest) : List Scored :=
  req.candidates.map fun c => score_candidate req.query c req.params

/-- `[s for s in scored if s.score >= 0.0]`. -/
noncomputable def keptOf (req : RankRequest) : List Scored :=
  (scoredOf req).filter fun s => decide (0 ≤ s.score)

/-- The list `dedup_scored` re-filters (`if s.score < 0: continue`). -/
noncomputable def nonnegOf (req : RankRequest) : List Scored :=
  (keptOf req).filter fun s => !decide (s.score < 0)

/-- The dedup groups of the request. -/
noncomputable def groupsAt (req : RankRequest) : List ((String × String) × List Scored) :=
  groupsOf (nonnegOf req)

/-- The deduplicated, score-sorted list. -/
noncomputable def dedupedOf (req : RankRequest) : List Scored :=
  dedup_scored (keptOf req) req.query req.params

/-- `k = max(1, min(params.k, len(scored)))` after dedup. -/
noncomputable def kOf (req : RankRequest) : ℤ :=
  max 1 (min req.params.k ((dedupedOf req).length : ℤ))

/-- The MMR selection, re-sorted by score descending (`chosen.sort`). -/
noncomputable def chosenOf (req : RankRequest) : List Scored :=
  sortDesc scoreLt (mmr_select (dedupedOf req) (kOf req) req.params.mmr_lambda)

/-- `rank(req)`: the full pipeline.  `none` models an uncaught exception:
a naive/aware comparison inside the dedup sort (`tiesOK`), the naive/aware
subtraction in `reasons_for`, or the (unreachable) `ranked_items[0]` on an
empty selection. -/
noncomputable def rank (req : RankRequest) : Option RankResponse :=
  match req.candidates with
  | [] => some ⟨true, some "no_candidates", none, []⟩
  | _ :: _ =>
    match keptOf req with
    | [] => some ⟨true, some "all_filtered", none, []⟩
    | _ :: _ =>
      if tiesOK (groupsAt req) then
        match dedupedOf req with
        | [] => some ⟨true, some "all_deduped", none, []⟩
        | d :: _ =>
          if d.score < req.params.confidence_floor then
            some ⟨true, some "low_confidence", none, []⟩
          else
            match mapOption (mkRankedItem req.query) (chosenOf req) with
            | some (i :: rest) => some ⟨false, none, some i, rest⟩
            | some [] => none
            | none => none
      else none

/-! ### Schema validity and concrete fixtures

`paramsValid`/`reqValid` are the pydantic bounds of
`services/ranker/app/schemas.py` (both naive and aware timestamps are
schema-valid; pydantic constrains neither).  The remaining definitions are
concrete requests used in counterexamples and witnesses. -/

/-- The `Field` bounds of `RankParams` in `schemas.py`. -/
def paramsValid (p : RankParams) : Prop :=
  1 ≤ p.k ∧ p.k ≤ 10 ∧
  0 ≤ p.mmr_lambda ∧ p.mmr_lambda ≤ 1 ∧
  0 ≤ p.confidence_floor ∧ p.confidence_floor ≤ 1 ∧
  0 < p.recency_half_life_days ∧
  0 ≤ p.skeleton_filter_threshold ∧ p.skeleton_filter_threshold ≤ 1 ∧
  0 ≤ p.allow_repeat_depth ∧ p.allow_repeat_depth ≤ 3 ∧
  0 ≤ p.allow_repeat_min_hours ∧
  0 ≤ p.success_bonus_alpha ∧ p.success_bonus_alpha ≤ 0.2

/-- The `Field` bounds of `Candidate` in `schemas.py`. -/
def candValid (c : Candidate) : Prop :=
  0 ≤ c.vector_similarity ∧ c.vector_similarity ≤ 1 ∧
  (∀ d, c.resolutionDepth = some d → 0 ≤ d ∧ d ≤ 3)

/-- A schema-valid request. -/
def reqValid (req : RankRequest) : Prop :=
  paramsValid req.params ∧
  (∀ d, req.query.resolutionDepth = some d → 0 ≤ d ∧ d ≤ 3) ∧
  ∀ c ∈ req.candidates, candValid c

/-- Fixture parameters: `k=2`, `λ=1/2`, floor 0, half-life 14, skeleton
threshold 3/5, repeat depth 3, repeat hours 24, α=0. -/
noncomputable def paramsW : RankParams := ⟨2, 1/2, 0, 14, 3/5, 3, 24, 0⟩

/-- Fixture query: uninformative one-token skeleton. -/
noncomputable def qW : QueryContext :=
  ⟨"s", "T", "x", ⟨0, true⟩, "h1", "w", [], [], "3.11", none⟩

/-- Fixture candidate: id `dup`, file hash `h2` (different from the
query's). -/
noncomputable def cW1 : Candidate :=
  ⟨"dup", 1, "x", ⟨0, true⟩, "h2", "w", [], [], "3.11", none⟩

/-- Second fixture candidate: the same id `dup` and the same fields except
the file hash `h3`, so its dedup key differs from `cW1`'s but its features
— hence its score — coincide. -/
noncomputable def cW2 : Candidate :=
  ⟨"dup", 1, "x", ⟨0, true⟩, "h3", "w", [], [], "3.11", none⟩

/-- The request with two distinct candidates sharing the id `dup`. -/
noncomputable def reqW : RankRequest := ⟨paramsW, qW, [cW1, cW2]⟩

/-- The two scored fixture candidates. -/
noncomputable def s1W : Scored := score_candidate qW cW1 paramsW

/-- The second scored fixture candidate; its score equals `s1W`'s. -/
noncomputable def s2W : Scored := score_candidate qW cW2 paramsW

/-- Parameters of the C5 failing input: `k=1`, the rest as `paramsW`. -/
noncomputable def params5 : RankParams := ⟨1, 1/2, 0, 14, 3/5, 3, 24, 0⟩

/-- The C5 candidate: a naive timestamp where the query `qW`'s is aware. -/
noncomputable def c5 : Candidate :=
  ⟨"a", 1, "x", ⟨0, false⟩, "h1", "w", [], [], "3.11", none⟩

/-- The C5 failing input: an aware query timestamp, a naive candidate
timestamp, everything else benign (no filter, floor 0). -/
noncomputable def req5 : RankRequest := ⟨params5, qW, [c5]⟩

/-- The scored C5 candidate. -/
noncomputable def s5W : Scored := score_candidate qW c5 params5

/-- Fixture query with an informative skeleton (6 word tokens). -/
noncomputable def qF : QueryContext :=
  ⟨"s", "T", "NameError: name x is not defined", ⟨0, true⟩, "h1", "w", [], [], "3.11", none⟩

/-- Fixture candidate whose skeleton shares no character with `qF`'s. -/
noncomputable def cF : Candidate :=
  ⟨"c1", 1, "))", ⟨0, true⟩, "h1", "w", [], [], "3.11", none⟩

/-- The request whose only candidate is hard-filtered. -/
noncomputable def reqF : RankRequest := ⟨paramsW, qF, [cF]⟩

/-- Fixture Scored values for the dedup-group witnesses. -/
noncomputable def sA : Scored := ⟨"a", ⟨1, 1, 1, 1, 1, 0, 1⟩, 1, cW1⟩

/-- A lower-scoring Scored of the same dedup key, ten days older, fully
resolved. -/
noncomputable def sB : Scored :=
  ⟨"b", ⟨0, 0, 1, 0, 0, 0, 1⟩, 0,
    ⟨"b", 1, "x", ⟨-864000, true⟩, "h1", "w", [], [], "3.11", some 3⟩⟩

/-- Fixture candidate with an empty activeFile_hash. -/
noncomputable def cE1 : Candidate :=
  ⟨"e1", 1, "x", ⟨0, true⟩, "", "w", [], [], "3.11", none⟩

/-- Second fixture candidate with an empty activeFile_hash and the same
skeleton. -/
noncomputable def cE2 : Candidate :=
  ⟨"e2", 1, "x ", ⟨0, true⟩, "", "w", [], [], "3.11", none⟩

/-- A Scored over `cE1`. -/
noncomputable def sE : Scored := ⟨"e1", ⟨0, 0, 0, 0, 0, 0, 0⟩, 0, cE1⟩

/-- The members of the dedup group of a key (empty when the key has no
group). -/
noncomputable def groupItemsAt (req : RankRequest) (key : String × String) : List Scored :=
  ((groupsAt req).lookup key).getD []

/-- What the deduper keeps from the group of a key. -/
noncomputable def keepAt (req : RankRequest) (key : String × String) : List Scored :=
  keepOf req.params (groupItemsAt req key)

/-! ### Lemmas: the text normalizer -/

lemma wsGo_head_true (l : List Char) :
    ∀ c, (wsGo true l).head? = some c → pyWhite c = false := by
  induction l with
  | nil => intro c h; simp [wsGo] at h
  | cons a as ih =>
      intro c h
      by_cases hw : pyWhite a
      · rw [wsGo, if_pos hw, if_pos rfl] at h
        exact ih c h
      · rw [wsGo, if_neg hw] at h
        simp only [List.head?_cons, Option.some.injEq] at h
        subst h
        exact Bool.eq_false_iff.mpr hw

lemma wsGo_true_of_head (l : List Char)
    (h : ∀ c, l.head? = some c → pyWhite c = false) :
    wsGo true l = wsGo false l := by
  cases l with
  | nil => rfl
  | cons a as =>
      have ha := h a rfl
      rw [wsGo, wsGo, if_neg (by simp [ha]), if_neg (by simp [ha])]

lemma wsGo_wsGo (l : List Char) : ∀ b, wsGo false (wsGo b l) = wsGo b l := by
  induction l with
  | nil => intro b; rfl
  | cons a as ih =>
      intro b
      by_cases hw : pyWhite a
      · cases b
        · rw [wsGo, if_pos hw]
          simp only [Bool.false_eq_true, if_false]
          rw [wsGo, if_pos (by decide : pyWhite ' ' = true)]
          simp only [Bool.false_eq_true, if_false]
          rw [wsGo_true_of_head _ (wsGo_head_true as), ih true]
        · rw [wsGo, if_pos hw, if_pos rfl]
          exact ih true
      · rw [wsGo, if_neg hw, wsGo, if_neg hw]
        rw [ih false]

lemma wsGo_mem (c : Char) (hc : pyWhite c = false) (l : List Char) :
    ∀ b, c ∈ l → c ∈ wsGo b l := by
  induction l with
  | nil => intro b h; exact absurd h (List.not_mem_nil c)
  | cons a as ih =>
      intro b h
      by_cases hw : pyWhite a
      · have hca : c ≠ a := fun e => by rw [e] at hc; rw [hc] at hw; exact Bool.false_ne_true hw
        have hm : c ∈ as := (List.mem_cons.mp h).resolve_left hca
        cases b
        · rw [wsGo, if_pos hw]
          simp only [Bool.false_eq_true, if_false]
          exact List.mem_cons_of_mem _ (ih true hm)
        · rw [wsGo, if_pos hw, if_pos rfl]
          exact ih true hm
      · rw [wsGo, if_neg hw]
        rcases List.mem_cons.mp h with h | h
        · exact h ▸ List.mem_cons_self _ _
        · exact List.mem_cons_of_mem _ (ih false h)

lemma wsGo_chars (l : List Char) : ∀ b, ∀ c ∈ wsGo b l, c ∈ l ∨ c = ' ' := by
  induction l with
  | nil => intro b c h; simp [wsGo] at h
  | cons a as ih =>
      intro b c h
      by_cases hw : pyWhite a
      · cases b
        · rw [wsGo, if_pos hw] at h
          simp only [Bool.false_eq_true, if_false] at h
          rcases List.mem_cons.mp h with h | h
          · exact Or.inr h
          · rcases ih true c h with h | h
            · exact Or.inl (List.mem_cons_of_mem _ h)
            · exact Or.inr h
        · rw [wsGo, if_pos hw, if_pos rfl] at h
          rcases ih true c h with h | h
          · exact Or.inl (List.mem_cons_of_mem _ h)
          · exact Or.inr h
      · rw [wsGo, if_neg hw] at h
        rcases List.mem_cons.mp h with h | h
        · exact Or.inl (h ▸ List.mem_cons_self _ _)
        · rcases ih false c h with h | h
          · exact Or.inl (List.mem_cons_of_mem _ h)
          · exact Or.inr h

lemma phGo_eq_self (l : List Char) (h : '<' ∉ phGo 0 l) : phGo 0 l = l := by
  induction l with
  | nil => rfl
  | cons a as ih =>
      cases hm : phM (a :: as) with
      | some e =>
          rw [phGo, hm] at h
          exact absurd (List.mem_cons_self _ _) h
      | none =>
          rw [phGo, hm] at h ⊢
          rw [ih fun hmem => h (List.mem_cons_of_mem _ hmem)]

lemma numGo_eq_self (l : List Char) :
    ∀ prev, '<' ∉ numGo 0 prev l → numGo 0 prev l = l := by
  induction l with
  | nil => intro prev h; rfl
  | cons a as ih =>
      intro prev h
      cases hm : numM prev (a :: as) with
      | some e =>
          rw [numGo, hm] at h
          exact absurd (List.mem_cons_self _ _) h
      | none =>
          rw [numGo, hm] at h ⊢
          rw [ih (some a) fun hmem => h (List.mem_cons_of_mem _ hmem)]

lemma pathGo_eq_self (l : List Char) (h : '<' ∉ pathGo 0 l) : pathGo 0 l = l := by
  induction l with
  | nil => rfl
  | cons a as ih =>
      cases hm : pathM (a :: as) with
      | some e =>
          rw [pathGo, hm] at h
          exact absurd (List.mem_cons_self _ _) h
      | none =>
          rw [pathGo, hm] at h ⊢
          rw [ih fun hmem => h (List.mem_cons_of_mem _ hmem)]

lemma phGo_id_of_no_lt (l : List Char) (h : '<' ∉ l) : phGo 0 l = l := by
  induction l with
  | nil => rfl
  | cons a as ih =>
      have ha : a ≠ '<' := fun e => h (e ▸ List.mem_cons_self _ _)
      have hm : phM (a :: as) = none := by
        rw [phM, if_neg (fun e => ha e)]
      rw [phGo, hm, ih fun hmem => h (List.mem_cons_of_mem _ hmem)]

lemma numM_none_of_not_digit (a : Char) (as : List Char) (ha : a.isDigit = false) :
    ∀ prev, numM prev (a :: as) = none := by
  have hAt : numMAt (a :: as) = none := by
    rw [numMAt, if_neg (by simp [ha])]
  intro prev
  cases prev with
  | none => exact hAt
  | some p =>
      rw [numM]
      by_cases hp : isWordChar p
      · rw [if_pos hp]
      · rw [if_neg hp]; exact hAt

lemma numGo_id_of_no_digit (l : List Char) (h : ∀ c ∈ l, c.isDigit = false) :
    ∀ prev, numGo 0 prev l = l := by
  induction l with
  | nil => intro prev; rfl
  | cons a as ih =>
      intro prev
      rw [numGo, numM_none_of_not_digit a as (h a (List.mem_cons_self _ _)),
        ih fun c hc => h c (List.mem_cons_of_mem _ hc)]

lemma posixM_none (a : Char) (as : List Char) (ha : a ≠ '/') : posixM (a :: as) = none := by
  rw [posixM, if_neg ha]

lemma pathM_none (l : List Char) (h1 : '/' ∉ l) (h2 : '\\' ∉ l) : pathM l = none := by
  match l with
  | [] => rfl
  | [a] =>
      exact posixM_none a [] fun e => h1 (e ▸ List.mem_cons_self _ _)
  | [a, b] =>
      exact posixM_none a [b] fun e => h1 (e ▸ List.mem_cons_self _ _)
  | [a, b, c] =>
      exact posixM_none a [b, c] fun e => h1 (e ▸ List.mem_cons_self _ _)
  | a :: b :: c :: d :: rest =>
      have hc : c ≠ '\\' := fun e => h2 (by simp [e])
      rw [pathM, if_neg (by intro hcon; exact hc hcon.2.2.1)]
      exact posixM_none a _ fun e => h1 (e ▸ List.mem_cons_self _ _)

lemma pathGo_id_of_no_slash (l : List Char) (h1 : '/' ∉ l) (h2 : '\\' ∉ l) :
    pathGo 0 l = l := by
  induction l with
  | nil => rfl
  | cons a as ih =>
      rw [pathGo, pathM_none _ h1 h2,
        ih (fun hmem => h1 (List.mem_cons_of_mem _ hmem))
           (fun hmem => h2 (List.mem_cons_of_mem _ hmem))]

lemma lookup_mem {α β : Type} [DecidableEq α] (ps : List (α × β)) (a : α) (b : β)
    (h : ps.lookup a = some b) : (a, b) ∈ ps := by
  induction ps with
  | nil => simp [List.lookup] at h
  | cons p rest ih =>
      rcases p with ⟨k, v⟩
      by_cases hk : a = k
      · subst hk
        simp only [List.lookup, beq_self_eq_true] at h
        cases h
        exact List.mem_cons_self _ _
      · simp only [List.lookup, beq_eq_false_iff_ne.mpr hk] at h
        exact List.mem_cons_of_mem _ (ih h)

lemma lowerPairs_snd_lookup : ∀ p ∈ lowerPairs, lowerPairs.lookup p.2 = none := by decide

lemma lowerPairs_snd_white : ∀ p ∈ lowerPairs, pyWhite p.2 = false := by decide

lemma pyLower_pyLower (c : Char) : pyLower (pyLower c) = pyLower c := by
  cases hl : lowerPairs.lookup c with
  | none =>
      have hc : pyLower c = c := by rw [pyLower, hl]; rfl
      rw [hc]; exact hc
  | some v =>
      have hv : (c, v) ∈ lowerPairs := lookup_mem _ _ _ hl
      have hvn : lowerPairs.lookup v = none := lowerPairs_snd_lookup (c, v) hv
      have hc : pyLower c = v := by rw [pyLower, hl]; rfl
      have hv2 : pyLower v = v := by rw [pyLower, hvn]; rfl
      rw [hc]; exact hv2

lemma pyWhite_pyLower (c : Char) (h : pyWhite c = false) : pyWhite (pyLower c) = false := by
  cases hl : lowerPairs.lookup c with
  | none => rw [pyLower, hl]; exact h
  | some v =>
      have hv : (c, v) ∈ lowerPairs := lookup_mem _ _ _ hl
      rw [pyLower, hl]
      exact lowerPairs_snd_white (c, v) hv
lemma head?_dropWhile (p : Char → Bool) (l : List Char) :
    ∀ c, (l.dropWhile p).head? = some c → p c = false := by
  induction l with
  | nil => intro c h; simp at h
  | cons a as ih =>
      intro c h
      by_cases hp : p a
      · rw [List.dropWhile_cons, if_pos hp] at h
        exact ih c h
      · rw [List.dropWhile_cons, if_neg hp] at h
        simp only [List.head?_cons, Option.some.injEq] at h
        subst h
        exact Bool.eq_false_iff.mpr hp

lemma dropWhile_eq_self_of_head (p : Char → Bool) (l : List Char)
    (h : ∀ c, l.head? = some c → p c = false) : l.dropWhile p = l := by
  cases l with
  | nil => rfl
  | cons a as => rw [List.dropWhile_cons, if_neg (by simp [h a rfl])]

lemma stripChars_noEdge (l : List Char) : NoEdgeWs (stripChars l) := by
  constructor
  · intro c h
    rcases he : stripChars l with _ | ⟨x, xs⟩
    · rw [he] at h; simp at h
    · rw [he] at h
      simp only [List.head?_cons, Option.some.injEq] at h
      subst h
      -- the reversed right-strip is a prefix of the left-stripped list
      have hpre : stripChars l <+: l.dropWhile pyWhite := by
        have hsuf : (l.dropWhile pyWhite).reverse.dropWhile pyWhite <:+ (l.dropWhile pyWhite).reverse :=
          List.dropWhile_suffix pyWhite
        have := List.reverse_prefix.mpr hsuf
        simpa [stripChars] using this
      obtain ⟨tail, htail⟩ := hpre
      have hhead : (l.dropWhile pyWhite).head? = some x := by
        rw [← htail, he]; rfl
      exact head?_dropWhile pyWhite l x hhead
  · intro c h
    rw [stripChars, List.getLast?_reverse] at h
    exact head?_dropWhile pyWhite _ c h

lemma noEdge_map_pyLower (l : List Char) (h : NoEdgeWs l) : NoEdgeWs (l.map pyLower) := by
  constructor
  · intro c hc
    rw [List.head?_map] at hc
    cases hh : l.head? with
    | none => rw [hh] at hc; simp at hc
    | some a =>
        rw [hh] at hc
        simp only [Option.map_some', Option.some.injEq] at hc
        subst hc
        exact pyWhite_pyLower a (h.1 a hh)
  · intro c hc
    rw [List.getLast?_map] at hc
    cases hh : l.getLast? with
    | none => rw [hh] at hc; simp at hc
    | some a =>
        rw [hh] at hc
        simp only [Option.map_some', Option.some.injEq] at hc
        subst hc
        exact pyWhite_pyLower a (h.2 a hh)

lemma wsGo_ne_nil_of_mem (l : List Char) (c : Char) (hc : pyWhite c = false)
    (hm : c ∈ l) : ∀ b, wsGo b l ≠ [] := fun b h =>
  absurd (h ▸ wsGo_mem c hc l b hm) (List.not_mem_nil c)

lemma wsGo_last (l : List Char) :
    ∀ b, (∀ c, l.getLast? = some c → pyWhite c = false) →
      ∀ c, (wsGo b l).getLast? = some c → pyWhite c = false := by
  induction l with
  | nil => intro b _ c h; simp [wsGo] at h
  | cons a as ih =>
      intro b hl c h
      cases as with
      | nil =>
          have ha : pyWhite a = false := hl a rfl
          rw [wsGo, if_neg (by simp [ha])] at h
          simp only [wsGo, List.getLast?_singleton, Option.some.injEq] at h
          subst h; exact ha
      | cons a2 as2 =>
          have hl' : ∀ c, (a2 :: as2).getLast? = some c → pyWhite c = false := by
            intro c hc
            exact hl c (by rw [List.getLast?_cons_cons]; exact hc)
          -- a nonwhite element of the tail survives into any wsGo of it
          obtain ⟨c0, hc0⟩ : ∃ c0, (a2 :: as2).getLast? = some c0 := by
            cases hg : (a2 :: as2).getLast? with
            | none => exact absurd hg (by simp [List.getLast?_eq_none_iff])
            | some x => exact ⟨x, rfl⟩
          have hc0w : pyWhite c0 = false := hl' c0 hc0
          have hc0m : c0 ∈ a2 :: as2 := List.mem_of_mem_getLast? (by rw [hc0]; rfl)
          by_cases hw : pyWhite a
          · cases b
            · rw [wsGo, if_pos hw] at h
              simp only [Bool.false_eq_true, if_false] at h
              have hne := wsGo_ne_nil_of_mem _ c0 hc0w hc0m true
              rcases hg : wsGo true (a2 :: as2) with _ | ⟨y, ys⟩
              · exact absurd hg hne
              · rw [hg, List.getLast?_cons_cons] at h
                exact ih true hl' c (by rw [hg]; exact h)
            · rw [wsGo, if_pos hw, if_pos rfl] at h
              exact ih true hl' c h
          · rw [wsGo, if_neg hw] at h
            have hne := wsGo_ne_nil_of_mem _ c0 hc0w hc0m false
            rcases hg : wsGo false (a2 :: as2) with _ | ⟨y, ys⟩
            · exact absurd hg hne
            · rw [hg, List.getLast?_cons_cons] at h
              exact ih false hl' c (by rw [hg]; exact h)

lemma noEdge_wsGo (l : List Char) (h : NoEdgeWs l) : NoEdgeWs (wsGo false l) := by
  constructor
  · intro c hc
    cases l with
    | nil => simp [wsGo] at hc
    | cons a as =>
        have ha : pyWhite a = false := h.1 a rfl
        rw [wsGo, if_neg (by simp [ha])] at hc
        simp only [List.head?_cons, Option.some.injEq] at hc
        subst hc; exact ha
  · exact wsGo_last l false h.2

lemma strip_eq_self (l : List Char) (h : NoEdgeWs l) : stripChars l = l := by
  rw [stripChars, dropWhile_eq_self_of_head pyWhite l h.1,
    dropWhile_eq_self_of_head pyWhite l.reverse
      (fun c hc => h.2 c (by rwa [List.head?_reverse] at hc)),
    List.reverse_reverse]

lemma map_pyLower_eq_self (l : List Char) (h : ∀ c ∈ l, pyLower c = c) :
    l.map pyLower = l := by
  induction l with
  | nil => rfl
  | cons a as ih =>
      rw [List.map_cons, h a (List.mem_cons_self _ _),
        ih fun c hc => h c (List.mem_cons_of_mem _ hc)]

example : matchTotal "x".data "q".data 3 0 1 0 1 = 0 := by decide
example : ratioQ "x".data "q".data = 0 := by
  have h : matchTotal "x".data "q".data 3 0 1 0 1 = 0 := by decide
  simp [ratioQ]
  norm_num [h]
example : ratioQ "abcd".data "bcd".data = 6/7 := by
  have h : matchTotal "abcd".data "bcd".data 8 0 4 0 3 = 3 := by decide
  simp [ratioQ]
  norm_num [h]
example : parse_pyver "3.11.5" = (3, 11) := by decide
example : parse_pyver "py3" = (0, 0) := by decide

example : norm_text "5" = "<n>" := by decide
example : norm_text (norm_text "5") = "<x>" := by decide
example : norm_text "  A  B 12.5 x " = "a b <n> x" := by decide
example : norm_text "/usr/lib/x" = "<p>" := by decide
example : norm_text "e /a/" = "e /a/" := by decide
example : norm_text "12.34a" = "<n>.34a" := by decide
example : norm_text "<VAR> is not defined" = "<x> is not defined" := by decide
example : skeleton_informative "NameError: name '<VAR>' is not defined" = true := by decide
example : skeleton_informative "x" = false := by decide

lemma maskFree_spec (l : List Char) (h : maskFree l = true) :
    '<' ∉ l ∧ (∀ c ∈ l, c.isDigit = false) ∧ '/' ∉ l ∧ '\\' ∉ l := by
  have hall := List.all_eq_true.mp h
  refine ⟨fun hm => ?_, fun c hm => ?_, fun hm => ?_, fun hm => ?_⟩
  · have := hall _ hm; simp at this
  · have := hall _ hm
    simp only [Bool.not_eq_true', Bool.or_eq_false_iff, decide_eq_false_iff_not] at this
    exact this.1.1.2
  · have := hall _ hm; simp at this
  · have := hall _ hm; simp at this

/-- C4 (amended): the text normalizer is idempotent on every string whose
normal form contains no maskable character — no `<`, no digit, no `/`, no
`\`.  (On other strings a second pass re-masks `<n>`, `<p>` and any
remaining `<…>` to `<x>`, as `C4_normalize_not_idempotent` shows.) -/
theorem C4_normalize_idempotent_no_mask (s : String)
    (h : maskFree (norm_text s).data = true) :
    norm_text (norm_text s) = norm_text s := by
  obtain ⟨hlt, hdig, hsl, hbs⟩ := maskFree_spec _ h
  -- abbreviate the once-lowered, stripped input
  set u : List Char := (stripChars s.data).map pyLower with hu
  -- no `<` survived whitespace collapse, so none was in the mask output
  have h1 : '<' ∉ pathGo 0 (numGo 0 none (phGo 0 u)) := fun hm =>
    hlt (wsGo_mem '<' (by decide) _ false hm)
  have e1 : pathGo 0 (numGo 0 none (phGo 0 u)) = numGo 0 none (phGo 0 u) :=
    pathGo_eq_self _ h1
  have h2 : '<' ∉ numGo 0 none (phGo 0 u) := e1 ▸ h1
  have e2 : numGo 0 none (phGo 0 u) = phGo 0 u := numGo_eq_self _ none h2
  have h3 : '<' ∉ phGo 0 u := e2 ▸ h2
  have e3 : phGo 0 u = u := phGo_eq_self _ h3
  -- hence the normal form is just the whitespace collapse of `u`
  have et : (norm_text s).data = wsGo false u := by
    show normChars s.data = _
    rw [normChars, pathSub, numSub, phSub, wsCollapse, e1, e2, e3]
  have hu_edge : NoEdgeWs u := noEdge_map_pyLower _ (stripChars_noEdge s.data)
  have ht_edge : NoEdgeWs (norm_text s).data := et ▸ noEdge_wsGo u hu_edge
  have hstrip : stripChars (norm_text s).data = (norm_text s).data :=
    strip_eq_self _ ht_edge
  have hlower : ((norm_text s).data).map pyLower = (norm_text s).data := by
    apply map_pyLower_eq_self
    intro c hc
    rw [et] at hc
    rcases wsGo_chars u false c hc with hcu | hcsp
    · obtain ⟨c0, _, rfl⟩ := List.mem_map.mp hcu
      exact pyLower_pyLower c0
    · subst hcsp; decide
  have hmain : normChars (norm_text s).data = (norm_text s).data := by
    rw [normChars, hstrip, hlower, phSub, phGo_id_of_no_lt _ hlt, numSub,
      numGo_id_of_no_digit _ hdig none, pathSub, pathGo_id_of_no_slash _ hsl hbs,
      wsCollapse, et, wsGo_wsGo u false]
  show String.mk (normChars (norm_text s).data) = norm_text s
  rw [hmain]

/-- C4 (counterexample): `normalize` is not idempotent — a first pass masks
the number `5` to `<n>`, and a second pass re-masks that placeholder to
`<x>`. -/
theorem C4_normalize_not_idempotent :
    norm_text (norm_text "5") ≠ norm_text "5" := by decide

/-- Witness for the amended C4 at the concrete input `"name is not defined"`. -/
theorem C4_witness :
    maskFree (norm_text "name is not defined").data = true ∧
      norm_text (norm_text "name is not defined") = norm_text "name is not defined" :=
  ⟨by decide, C4_normalize_idempotent_no_mask "name is not defined" (by decide)⟩

/-! ### C7: recency -/

/-- C7: for any positive half life, a more recent candidate timestamp gives
a recency feature at least as large; recency always lies in [0, 1]; and a
candidate is only ever removed (sentinel score -1) by the hard skeleton
filter, never by recency. -/
theorem C7_recency_monotone (now t1 t2 : PyTime) (h : ℝ) (hh : 0 < h)
    (hts : t2.sec ≤ t1.sec) :
    recency_score now t2 h ≤ recency_score now t1 h ∧
      (∀ (a b : PyTime) (hl : ℝ),
        0 ≤ recency_score a b hl ∧ recency_score a b hl ≤ 1) ∧
      (∀ (q : QueryContext) (c : Candidate) (p : RankParams),
        (score_candidate q c p).score = -1 →
          skeleton_similarity q.pemSkeleton c.pemSkeleton < p.skeleton_filter_threshold ∧
            skeleton_informative q.pemSkeleton = true) := by
  have hM : ∀ hl : ℝ, (0 : ℝ) < max 1e-6 hl := fun hl =>
    lt_of_lt_of_le (by norm_num) (le_max_left _ _)
  have hexp : ∀ (a b : PyTime) (hl : ℝ),
      0 ≤ max 0 (((a.sec - b.sec : ℚ) : ℝ) / 86400) / max 1e-6 hl := fun a b hl =>
    div_nonneg (le_max_left _ _) (le_of_lt (hM hl))
  refine ⟨?_, ?_, ?_⟩
  · rw [recency_score, recency_score]
    apply Real.rpow_le_rpow_of_exponent_ge (by norm_num) (by norm_num)
    apply div_le_div_of_nonneg_right ?_ (le_of_lt (hM h))
    apply max_le_max le_rfl
    apply div_le_div_of_nonneg_right ?_ (by norm_num : (0:ℝ) ≤ 86400)
    exact_mod_cast sub_le_sub_left hts now.sec
  · intro a b hl
    constructor
    · exact Real.rpow_nonneg (by norm_num) _
    · exact Real.rpow_le_one (by norm_num) (by norm_num) (hexp a b hl)
  · intro q c p hscore
    by_cases hc : (compute_features q c p).skeleton < p.skeleton_filter_threshold ∧
        skeleton_informative q.pemSkeleton = true
    · exact hc
    · exfalso
      simp only [score_candidate] at hscore
      rw [if_neg hc] at hscore
      simp only at hscore
      have hne : ∀ x : ℝ, max 0 x ≠ -1 := fun x hx => by
        have hge : (0 : ℝ) ≤ max 0 x := le_max_left _ _
        rw [hx] at hge; norm_num at hge
      exact hne _ hscore

/-- Witness for C7 at concrete timestamps one day apart. -/
theorem C7_witness :
    recency_score ⟨0, true⟩ ⟨-86400, true⟩ 14 ≤ recency_score ⟨0, true⟩ ⟨0, true⟩ 14 ∧
      (∀ (a b : PyTime) (hl : ℝ),
        0 ≤ recency_score a b hl ∧ recency_score a b hl ≤ 1) ∧
      (∀ (q : QueryContext) (c : Candidate) (p : RankParams),
        (score_candidate q c p).score = -1 →
          skeleton_similarity q.pemSkeleton c.pemSkeleton < p.skeleton_filter_threshold ∧
            skeleton_informative q.pemSkeleton = true) :=
  C7_recency_monotone ⟨0, true⟩ ⟨0, true⟩ ⟨-86400, true⟩ 14 (by norm_num) (by norm_num)

/-! ### Lemmas: sorting -/

lemma insertDesc_perm {α : Type} (lt : α → α → Prop) [DecidableRel lt] (x : α)
    (l : List α) : List.Perm (insertDesc lt x l) (x :: l) := by
  induction l with
  | nil => exact List.Perm.refl _
  | cons y ys ih =>
      rw [insertDesc]
      by_cases h : lt y x
      · rw [if_pos h]
      · rw [if_neg h]
        exact (ih.cons y).trans (List.Perm.swap x y ys)

lemma sortDesc_perm {α : Type} (lt : α → α → Prop) [DecidableRel lt] (l : List α) :
    List.Perm (sortDesc lt l) l := by
  suffices h : ∀ acc, List.Perm (List.foldl (fun acc x => insertDesc lt x acc) acc l) (acc ++ l) by
    simpa using h []
  induction l with
  | nil => intro acc; simp
  | cons x xs ih =>
      intro acc
      rw [List.foldl_cons]
      refine (ih (insertDesc lt x acc)).trans ?_
      refine ((insertDesc_perm lt x acc).append_right xs).trans ?_
      exact List.perm_middle.symm

lemma insertDesc_pairwise {α : Type} (lt : α → α → Prop) [DecidableRel lt]
    (htr : Transitive lt) (hirr : Irreflexive lt) (x : α) (l : List α)
    (hl : l.Pairwise fun a b => ¬ lt a b) :
    (insertDesc lt x l).Pairwise fun a b => ¬ lt a b := by
  induction l with
  | nil => simp [insertDesc]
  | cons y ys ih =>
      rw [insertDesc]
      by_cases h : lt y x
      · rw [if_pos h]
        refine List.Pairwise.cons ?_ hl
        intro z hz
        rcases List.mem_cons.mp hz with rfl | hz
        · exact fun hxz => hirr _ (htr h hxz)
        · have hyz := (List.pairwise_cons.mp hl).1 z hz
          exact fun hxz => hyz (htr h hxz)
      · rw [if_neg h]
        have h1 := (List.pairwise_cons.mp hl).1
        have h2 := (List.pairwise_cons.mp hl).2
        refine List.Pairwise.cons ?_ (ih h2)
        intro z hz
        have hz' := (insertDesc_perm lt x ys).mem_iff.mp hz
        rcases List.mem_cons.mp hz' with rfl | hz'
        · exact h
        · exact h1 z hz'

lemma sortDesc_pairwise {α : Type} (lt : α → α → Prop) [DecidableRel lt]
    (htr : Transitive lt) (hirr : Irreflexive lt) (l : List α) :
    (sortDesc lt l).Pairwise fun a b => ¬ lt a b := by
  suffices h : ∀ acc, acc.Pairwise (fun a b => ¬ lt a b) →
      (List.foldl (fun acc x => insertDesc lt x acc) acc l).Pairwise fun a b => ¬ lt a b by
    exact h [] List.Pairwise.nil
  induction l with
  | nil => intro acc hacc; exact hacc
  | cons x xs ih =>
      intro acc hacc
      rw [List.foldl_cons]
      exact ih _ (insertDesc_pairwise lt htr hirr x acc hacc)

lemma sortDesc_head_max {α : Type} (lt : α → α → Prop) [DecidableRel lt]
    (htr : Transitive lt) (hirr : Irreflexive lt) (l : List α) (p : α) (rest : List α)
    (h : sortDesc lt l = p :: rest) : ∀ x ∈ l, ¬ lt p x := by
  intro x hx
  have hx' : x ∈ p :: rest := h ▸ (sortDesc_perm lt l).mem_iff.mpr hx
  rcases List.mem_cons.mp hx' with rfl | hx'
  · exact hirr _
  · have hp := sortDesc_pairwise lt htr hirr l
    rw [h] at hp
    exact (List.pairwise_cons.mp hp).1 x hx'

lemma scoreLt_trans : Transitive scoreLt := fun _ _ _ h1 h2 => lt_trans h1 h2

lemma scoreLt_irrefl : Irreflexive scoreLt := fun a => lt_irrefl a.score

lemma ltLexScored_trans : Transitive ltLexScored := by
  rintro a b c (h1 | ⟨he1, h1⟩) (h2 | ⟨he2, h2⟩)
  · exact Or.inl (lt_trans h1 h2)
  · exact Or.inl (he2 ▸ h1)
  · exact Or.inl (he1 ▸ h2)
  · exact Or.inr ⟨he1.trans he2, lt_trans h1 h2⟩

lemma ltLexScored_irrefl : Irreflexive ltLexScored := by
  rintro a (h | ⟨_, h⟩) <;> exact lt_irrefl _ h

/-! ### Lemmas: permutations and subpermutations -/

lemma subperm_append {α : Type} {l₁ l₂ r₁ r₂ : List α}
    (h1 : l₁ <+~ l₂) (h2 : r₁ <+~ r₂) : l₁ ++ r₁ <+~ l₂ ++ r₂ := by
  obtain ⟨u, hu, hsu⟩ := h1
  obtain ⟨v, hv, hsv⟩ := h2
  exact ⟨u ++ v, hu.append hv, hsu.append hsv⟩

lemma subperm_nodup {α : Type} {l₁ l₂ : List α} (h : l₁ <+~ l₂) (hn : l₂.Nodup) :
    l₁.Nodup := by
  obtain ⟨u, hu, hsu⟩ := h
  exact hu.nodup (hsu.nodup hn)

/-! ### Lemmas: the dedup groups -/

/-- All members of the group lists, in group order. -/
def groupsFlatten (g : List ((String × String) × List Scored)) : List Scored :=
  (g.map (·.2)).flatten

lemma addToGroups_flatten (g : List ((String × String) × List Scored))
    (key : String × String) (s : Scored) :
    List.Perm (groupsFlatten (addToGroups g key s)) (groupsFlatten g ++ [s]) := by
  induction g with
  | nil => simp [addToGroups, groupsFlatten]
  | cons p rest ih =>
      rcases p with ⟨k, items⟩
      rw [addToGroups]
      by_cases hk : k = key
      · rw [if_pos hk]
        simp only [groupsFlatten, List.map_cons, List.flatten_cons]
        rw [List.append_assoc]
        exact ((List.perm_append_comm).append_left items).trans (by simp)
      · rw [if_neg hk]
        simp only [groupsFlatten, List.map_cons, List.flatten_cons]
        refine (ih.append_left items).trans ?_
        simp [groupsFlatten]

lemma groupsOf_flatten (l : List Scored) :
    List.Perm (groupsFlatten (groupsOf l)) l := by
  suffices h : ∀ g₀, List.Perm
      (groupsFlatten (l.foldl (fun g s => addToGroups g (dedup_key s.cand) s) g₀))
      (groupsFlatten g₀ ++ l) by
    simpa [groupsOf, groupsFlatten] using h []
  induction l with
  | nil => intro g₀; simp
  | cons s ss ih =>
      intro g₀
      rw [List.foldl_cons]
      refine (ih _).trans ?_
      refine ((addToGroups_flatten g₀ (dedup_key s.cand) s).append_right ss).trans ?_
      simp

lemma addToGroups_key_inv (g : List ((String × String) × List Scored))
    (key : String × String) (s : Scored)
    (hg : ∀ p ∈ g, ∀ x ∈ p.2, dedup_key x.cand = p.1) (hs : dedup_key s.cand = key) :
    ∀ p ∈ addToGroups g key s, ∀ x ∈ p.2, dedup_key x.cand = p.1 := by
  induction g with
  | nil =>
      intro p hp x hx
      simp only [addToGroups, List.mem_singleton] at hp
      subst hp
      simp only [List.mem_singleton] at hx
      subst hx
      exact hs
  | cons q rest ih =>
      rcases q with ⟨k, items⟩
      intro p hp x hx
      rw [addToGroups] at hp
      by_cases hk : k = key
      · rw [if_pos hk] at hp
        rcases List.mem_cons.mp hp with rfl | hp
        · rcases List.mem_append.mp hx with hx | hx
          · exact hg (k, items) (List.mem_cons_self _ _) x hx
          · simp only [List.mem_singleton] at hx
            subst hx; rw [hs, hk]
        · exact hg p (List.mem_cons_of_mem _ hp) x hx
      · rw [if_neg hk] at hp
        rcases List.mem_cons.mp hp with rfl | hp
        · exact hg _ (List.mem_cons_self _ _) x hx
        · exact ih (fun q hq => hg q (List.mem_cons_of_mem _ hq)) p hp x hx

lemma groupsOf_key_inv (l : List Scored) :
    ∀ p ∈ groupsOf l, ∀ x ∈ p.2, dedup_key x.cand = p.1 := by
  suffices h : ∀ g₀, (∀ p ∈ g₀, ∀ x ∈ p.2, dedup_key x.cand = p.1) →
      ∀ p ∈ l.foldl (fun g s => addToGroups g (dedup_key s.cand) s) g₀,
        ∀ x ∈ p.2, dedup_key x.cand = p.1 by
    exact h [] (by simp)
  induction l with
  | nil => intro g₀ hg; exact hg
  | cons s ss ih =>
      intro g₀ hg
      rw [List.foldl_cons]
      exact ih _ (addToGroups_key_inv g₀ _ s hg rfl)

lemma addToGroups_keys_sub (g : List ((String × String) × List Scored))
    (key : String × String) (s : Scored) :
    ∀ p ∈ addToGroups g key s, p.1 ∈ g.map (·.1) ∨ p.1 = key := by
  induction g with
  | nil =>
      intro p hp
      simp only [addToGroups, List.mem_singleton] at hp
      subst hp; exact Or.inr rfl
  | cons q rest ih =>
      rcases q with ⟨k, items⟩
      intro p hp
      rw [addToGroups] at hp
      by_cases hk : k = key
      · rw [if_pos hk] at hp
        rcases List.mem_cons.mp hp with rfl | hp
        · exact Or.inl (by simp)
        · exact Or.inl (by
            simp only [List.map_cons, List.mem_cons]
            exact Or.inr (List.mem_map.mpr ⟨p, hp, rfl⟩))
      · rw [if_neg hk] at hp
        rcases List.mem_cons.mp hp with rfl | hp
        · exact Or.inl (by simp)
        · rcases ih p hp with h | h
          · exact Or.inl (by simp only [List.map_cons, List.mem_cons]; right; exact h)
          · exact Or.inr h

lemma addToGroups_keys_nodup (g : List ((String × String) × List Scored))
    (key : String × String) (s : Scored) (hg : (g.map (·.1)).Nodup) :
    ((addToGroups g key s).map (·.1)).Nodup := by
  induction g with
  | nil => simp [addToGroups]
  | cons q rest ih =>
      rcases q with ⟨k, items⟩
      rw [addToGroups]
      by_cases hk : k = key
      · rw [if_pos hk]
        simpa using hg
      · rw [if_neg hk]
        simp only [List.map_cons, List.nodup_cons] at hg ⊢
        refine ⟨?_, ih hg.2⟩
        intro hmem
        obtain ⟨p, hp, hpk⟩ := List.mem_map.mp hmem
        rcases addToGroups_keys_sub rest key s p hp with h | h
        · exact hg.1 (hpk ▸ h)
        · exact hk (by rw [← hpk, h])

lemma groupsOf_keys_nodup (l : List Scored) : ((groupsOf l).map (·.1)).Nodup := by
  suffices h : ∀ g₀, ((g₀.map (·.1)).Nodup) →
      (((l.foldl (fun g s => addToGroups g (dedup_key s.cand) s) g₀).map (·.1)).Nodup) by
    exact h [] (by simp)
  induction l with
  | nil => intro g₀ hg; exact hg
  | cons s ss ih =>
      intro g₀ hg
      rw [List.foldl_cons]
      exact ih _ (addToGroups_keys_nodup g₀ _ s hg)

/-! ### Lemmas: keepOf and dedup_scored -/

lemma keepOf_sublist (params : RankParams) (items : List Scored) :
    keepOf params items <+ sortDesc ltLexScored items := by
  rw [keepOf]
  rcases hs : sortDesc ltLexScored items with _ | ⟨p, rest⟩
  · exact List.Sublist.refl _
  · cases hf : rest.find? (allowedB params p) with
    | none =>
        simp only [hf, Option.toList]
        exact (List.nil_sublist rest).cons₂ p
    | some a =>
        simp only [hf, Option.toList]
        exact ((List.singleton_sublist).mpr (List.mem_of_find?_eq_some hf)).cons₂ p

lemma keepOf_subperm (params : RankParams) (items : List Scored) :
    keepOf params items <+~ items :=
  (keepOf_sublist params items).subperm.trans (sortDesc_perm ltLexScored items).subperm

lemma dedup_scored_subperm (scored : List Scored) (query : QueryContext)
    (params : RankParams) :
    dedup_scored scored query params <+~ scored.filter fun s => !decide (s.score < 0) := by
  rw [dedup_scored]
  refine ((sortDesc_perm scoreLt _).subperm).trans ?_
  refine List.Subperm.trans ?_ (groupsOf_flatten _).subperm
  generalize groupsOf _ = groups
  induction groups with
  | nil => simp [groupsFlatten]
  | cons g rest ih =>
      simp only [List.map_cons, List.flatten_cons, groupsFlatten]
      exact subperm_append (keepOf_subperm params g.2) (by simpa [groupsFlatten] using ih)

/-! ### Lemmas: MMR -/

lemma popAt_perm {α : Type} (l : List α) (i : Nat) (x : α) (rest : List α)
    (h : popAt l i = some (x, rest)) : List.Perm (x :: rest) l := by
  induction l generalizing i rest with
  | nil => simp [popAt] at h
  | cons a as ih =>
      cases i with
      | zero =>
          simp only [popAt, Option.some.injEq, Prod.mk.injEq] at h
          rw [← h.1, ← h.2]
      | succ n =>
          simp only [popAt, Option.map_eq_some'] at h
          obtain ⟨⟨y, ys⟩, hy, he⟩ := h
          cases he
          exact (List.Perm.swap a y ys).trans ((ih n ys hy).cons a)

lemma mmr_go_subperm (lamb : ℝ) (k : ℤ) :
    ∀ (fuel : Nat) (sel rem : List Scored), mmr_go lamb k fuel sel rem <+~ sel ++ rem := by
  intro fuel
  induction fuel with
  | zero =>
      intro sel rem
      cases rem with
      | nil => simpa [mmr_go] using List.Subperm.refl sel
      | cons r rs => simpa [mmr_go] using (List.sublist_append_left sel (r :: rs)).subperm
  | succ fuel ih =>
      intro sel rem
      cases rem with
      | nil => simpa [mmr_go] using List.Subperm.refl sel
      | cons r rs =>
          simp only [mmr_go]
          by_cases hlen : (sel.length : ℤ) < k
          · rw [if_pos hlen]
            cases sel with
            | nil => simpa using ih [r] rs
            | cons s0 ss =>
                cases hp : popAt (r :: rs) (argmaxAux lamb (s0 :: ss) (r :: rs)).1 with
                | none => exact (List.sublist_append_left _ _).subperm
                | some xr =>
                    rcases xr with ⟨x, rest⟩
                    refine (ih _ rest).trans ?_
                    rw [List.append_assoc]
                    refine (List.Perm.append_left (s0 :: ss) ?_).subperm
                    simpa using popAt_perm _ _ _ _ hp
          · rw [if_neg hlen]
            exact (List.sublist_append_left _ _).subperm

lemma mmr_select_subperm (scored : List Scored) (k : ℤ) (lamb : ℝ) :
    mmr_select scored k lamb <+~ scored := by
  unfold mmr_select
  by_cases hk : k ≤ 0
  · rw [if_pos hk]; exact List.nil_subperm
  · rw [if_neg hk]
    cases scored with
    | nil => exact List.nil_subperm
    | cons s ss => simpa using mmr_go_subperm lamb k (s :: ss).length [] (s :: ss)

/-! ### Lemmas: pipeline stages -/

lemma chosenOf_subperm (req : RankRequest) : chosenOf req <+~ dedupedOf req :=
  ((sortDesc_perm scoreLt _).subperm).trans (mmr_select_subperm _ _ _)

lemma dedupedOf_subperm (req : RankRequest) : dedupedOf req <+~ nonnegOf req :=
  dedup_scored_subperm (keptOf req) req.query req.params

lemma nonnegOf_sublist (req : RankRequest) : nonnegOf req <+ scoredOf req :=
  (List.filter_sublist _).trans (List.filter_sublist _)

lemma chosenOf_mem_scored (req : RankRequest) (s : Scored) (h : s ∈ chosenOf req) :
    s ∈ scoredOf req :=
  (nonnegOf_sublist req).subset
    ((dedupedOf_subperm req).subset ((chosenOf_subperm req).subset h))

lemma score_candidate_cand (q : QueryContext) (c : Candidate) (p : RankParams) :
    (score_candidate q c p).cand = c := by
  rw [score_candidate]
  by_cases h : (compute_features q c p).skeleton < p.skeleton_filter_threshold ∧
      skeleton_informative q.pemSkeleton = true
  · rw [if_pos h]
  · rw [if_neg h]

lemma score_candidate_id (q : QueryContext) (c : Candidate) (p : RankParams) :
    (score_candidate q c p).id = c.id := by
  rw [score_candidate]
  by_cases h : (compute_features q c p).skeleton < p.skeleton_filter_threshold ∧
      skeleton_informative q.pemSkeleton = true
  · rw [if_pos h]
  · rw [if_neg h]

/-! ### Lemmas: the shape of rank responses -/

lemma mapOption_mem {α β : Type} (f : α → Option β) (l : List α) (ys : List β)
    (h : mapOption f l = some ys) : ∀ y ∈ ys, ∃ x ∈ l, f x = some y := by
  induction l generalizing ys with
  | nil =>
      simp only [mapOption, Option.some.injEq] at h
      subst h
      intro y hy
      exact absurd hy (List.not_mem_nil y)
  | cons x xs ih =>
      rw [mapOption] at h
      cases hfx : f x with
      | none =>
          rw [hfx] at h
          cases hrest : mapOption f xs <;> rw [hrest] at h <;> simp at h
      | some y0 =>
          rw [hfx] at h
          cases hrest : mapOption f xs with
          | none => rw [hrest] at h; simp at h
          | some ys0 =>
              rw [hrest] at h
              simp only [Option.some.injEq] at h
              subst h
              intro y hy
              rcases List.mem_cons.mp hy with rfl | hy
              · exact ⟨x, List.mem_cons_self _ _, hfx⟩
              · obtain ⟨x', hx', hfx'⟩ := ih ys0 hrest y hy
                exact ⟨x', List.mem_cons_of_mem _ hx', hfx'⟩

lemma keptOf_nil_of_candidates_nil (req : RankRequest) (h : req.candidates = []) :
    keptOf req = [] := by
  rw [keptOf, scoredOf, h]
  rfl

lemma dedupedOf_nil_of_keptOf_nil (req : RankRequest) (h : keptOf req = []) :
    dedupedOf req = [] := by
  rw [dedupedOf, dedup_scored, h]
  rfl

lemma keptOf_ne_nil_of_deduped (req : RankRequest) (d : Scored) (dd : List Scored)
    (hd : dedupedOf req = d :: dd) : keptOf req ≠ [] := by
  intro h
  rw [dedupedOf_nil_of_keptOf_nil req h] at hd
  exact List.noConfusion hd

lemma candidates_ne_nil_of_deduped (req : RankRequest) (d : Scored) (dd : List Scored)
    (hd : dedupedOf req = d :: dd) : req.candidates ≠ [] := fun h =>
  keptOf_ne_nil_of_deduped req d dd hd (keptOf_nil_of_candidates_nil req h)

/-- The value of `rank` once dedup survivors exist and the group sort cannot
raise. -/
lemma rank_eq_of_deduped (req : RankRequest) (d : Scored) (dd : List Scored)
    (hd : dedupedOf req = d :: dd) (hties : tiesOK (groupsAt req)) :
    rank req =
      if d.score < req.params.confidence_floor then
        some ⟨true, some "low_confidence", none, []⟩
      else
        match mapOption (mkRankedItem req.query) (chosenOf req) with
        | some (i :: rest) => some ⟨false, none, some i, rest⟩
        | some [] => none
        | none => none := by
  have hkept := keptOf_ne_nil_of_deduped req d dd hd
  have hcand := candidates_ne_nil_of_deduped req d dd hd
  unfold rank
  rcases hc : req.candidates with _ | ⟨c0, cs⟩
  · exact absurd hc hcand
  rcases hk : keptOf req with _ | ⟨k0, ks⟩
  · exact absurd hk hkept
  show (if tiesOK (groupsAt req) then _ else _) = _
  rw [if_pos hties, hd]

/-- `rank` raises (returns `none`) when a dedup group compares a naive with
an aware timestamp at a score tie. -/
lemma rank_eq_none_of_ties (req : RankRequest) (hcand : req.candidates ≠ [])
    (hkept : keptOf req ≠ []) (hties : ¬ tiesOK (groupsAt req)) :
    rank req = none := by
  unfold rank
  rcases hc : req.candidates with _ | ⟨c0, cs⟩
  · exact absurd hc hcand
  rcases hk : keptOf req with _ | ⟨k0, ks⟩
  · exact absurd hk hkept
  show (if tiesOK (groupsAt req) then _ else _) = _
  rw [if_neg hties]

/-- Every `some` response either abstains with empty items, or is assembled
from the MMR selection. -/
lemma rank_cases (req : RankRequest) (resp : RankResponse) (h : rank req = some resp) :
    (resp.abstain = true ∧ resp.best = none ∧ resp.alternates = []) ∨
      (∃ i rest, mapOption (mkRankedItem req.query) (chosenOf req) = some (i :: rest) ∧
        resp.abstain = false ∧ resp.best = some i ∧ resp.alternates = rest) := by
  unfold rank at h
  split at h
  · cases h; exact Or.inl ⟨rfl, rfl, rfl⟩
  · split at h
    · cases h; exact Or.inl ⟨rfl, rfl, rfl⟩
    · split at h
      · split at h
        · cases h; exact Or.inl ⟨rfl, rfl, rfl⟩
        · split at h
          · cases h; exact Or.inl ⟨rfl, rfl, rfl⟩
          · split at h
            · cases h
              rename_i i rest heq
              exact Or.inr ⟨i, rest, heq, rfl, rfl, rfl⟩
            · exact Option.noConfusion h
            · exact Option.noConfusion h
      · exact Option.noConfusion h

lemma compute_features_skeleton (q : QueryContext) (c : Candidate) (p : RankParams) :
    (compute_features q c p).skeleton = skeleton_similarity q.pemSkeleton c.pemSkeleton := rfl

/-! ### C1: the hard skeleton filter -/

/-- C1: when the query skeleton is informative, a candidate whose skeleton
feature is below `skeleton_filter_threshold` is assigned the sentinel score
-1, and no emitted Scored — hence no position of the response, best or
alternate — comes from it. -/
theorem C1_hard_filter (req : RankRequest) (c : Candidate)
    (hinf : skeleton_informative req.query.pemSkeleton = true)
    (hlt : skeleton_similarity req.query.pemSkeleton c.pemSkeleton <
      req.params.skeleton_filter_threshold) :
    score_candidate req.query c req.params =
        ⟨c.id, compute_features req.query c req.params, -1, c⟩ ∧
      (∀ s ∈ chosenOf req, s.cand ≠ c) ∧
      ∀ resp, rank req = some resp → ∀ it : RankedItem,
        (resp.best = some it ∨ it ∈ resp.alternates) →
          ∃ s ∈ chosenOf req, mkRankedItem req.query s = some it ∧ s.cand ≠ c := by
  have hsc : score_candidate req.query c req.params =
      ⟨c.id, compute_features req.query c req.params, -1, c⟩ := by
    rw [score_candidate, if_pos ⟨hlt, hinf⟩]
  have hnotc : ∀ s ∈ chosenOf req, s.cand ≠ c := by
    intro s hs hcand
    -- membership through the pipeline back to the scored list, with score ≥ 0
    have h1 := (dedupedOf_subperm req).subset ((chosenOf_subperm req).subset hs)
    rw [nonnegOf] at h1
    have hsk := (List.mem_filter.mp h1).1
    rw [keptOf] at hsk
    obtain ⟨hmem, hdec⟩ := List.mem_filter.mp hsk
    have hge : (0 : ℝ) ≤ s.score := of_decide_eq_true hdec
    rw [scoredOf] at hmem
    obtain ⟨c', hc', hs'⟩ := List.mem_map.mp hmem
    have hcc : c' = c := by
      rw [← score_candidate_cand req.query c' req.params, hs', hcand]
    subst hcc
    rw [← hs', hsc] at hge
    norm_num at hge
  refine ⟨hsc, hnotc, ?_⟩
  intro resp hresp it hit
  rcases rank_cases req resp hresp with ⟨_, hb, ha⟩ | ⟨i, rest, hmap, _, hb, ha⟩
  · rcases hit with hit | hit
    · rw [hb] at hit; exact Option.noConfusion hit
    · rw [ha] at hit; exact absurd hit (List.not_mem_nil it)
  · have hmem : it ∈ i :: rest := by
      rcases hit with hit | hit
      · rw [hb] at hit
        exact (Option.some.inj hit) ▸ List.mem_cons_self _ _
      · exact List.mem_cons_of_mem _ (ha ▸ hit)
    obtain ⟨s, hs, hfs⟩ := mapOption_mem _ _ _ hmap it hmem
    exact ⟨s, hs, hfs, hnotc s hs⟩

/-- Witness for C1: the query skeleton is informative and the candidate
`cW2f` shares no character with it, so its similarity is 0, below the 0.6
threshold. -/
theorem C1_witness :
    skeleton_informative reqF.query.pemSkeleton = true ∧
      skeleton_similarity reqF.query.pemSkeleton cF.pemSkeleton <
        reqF.params.skeleton_filter_threshold ∧
      (score_candidate reqF.query cF reqF.params =
          ⟨cF.id, compute_features reqF.query cF reqF.params, -1, cF⟩ ∧
        (∀ s ∈ chosenOf reqF, s.cand ≠ cF) ∧
        ∀ resp, rank reqF = some resp → ∀ it : RankedItem,
          (resp.best = some it ∨ it ∈ resp.alternates) →
            ∃ s ∈ chosenOf reqF, mkRankedItem reqF.query s = some it ∧ s.cand ≠ cF) := by
  have h1 : skeleton_informative reqF.query.pemSkeleton = true := by decide
  have h2 : skeleton_similarity reqF.query.pemSkeleton cF.pemSkeleton <
      reqF.params.skeleton_filter_threshold := by
    rw [skeleton_similarity]
    rw [if_neg (by decide)]
    have hr : ratioQ (norm_text reqF.query.pemSkeleton).data (norm_text cF.pemSkeleton).data = 0 := by
      have hm : matchTotal (norm_text reqF.query.pemSkeleton).data (norm_text cF.pemSkeleton).data
          ((norm_text reqF.query.pemSkeleton).data.length + (norm_text cF.pemSkeleton).data.length + 1)
          0 (norm_text reqF.query.pemSkeleton).data.length
          0 (norm_text cF.pemSkeleton).data.length = 0 := by decide
      rw [ratioQ]
      rw [if_neg (by decide)]
      rw [hm]
      norm_num
    rw [hr]
    show ((0 : ℚ) : ℝ) < (3 : ℝ) / 5
    norm_num
  exact ⟨h1, h2, C1_hard_filter reqF cF h1 h2⟩

/-! ### C3: the confidence floor -/

/-- C3: when candidates survive scoring, filtering and dedup, the head of
the deduplicated list is the maximum pre-MMR score; a response abstains
with reason `low_confidence` (and empty items) exactly when that maximum is
below `confidence_floor`, and otherwise does not abstain and carries a
`best`. -/
theorem C3_confidence_floor (req : RankRequest) :
    match dedupedOf req with
    | [] => True
    | d :: _ =>
        (∀ s ∈ dedupedOf req, s.score ≤ d.score) ∧
        ∀ resp, rank req = some resp →
          ((d.score < req.params.confidence_floor →
              resp = ⟨true, some "low_confidence", none, []⟩) ∧
            (¬ d.score < req.params.confidence_floor →
              resp.abstain = false ∧ resp.best ≠ none)) := by
  rcases hd : dedupedOf req with _ | ⟨d, dd⟩
  · trivial
  refine ⟨?_, ?_⟩
  · intro s hs
    rcases List.mem_cons.mp hs with rfl | hs
    · exact le_refl _
    · have hp : (d :: dd).Pairwise fun a b => ¬ scoreLt a b := by
        rw [← hd, dedupedOf, dedup_scored]
        exact sortDesc_pairwise scoreLt scoreLt_trans scoreLt_irrefl _
      exact not_lt.mp ((List.pairwise_cons.mp hp).1 s hs)
  · intro resp hresp
    by_cases hties : tiesOK (groupsAt req)
    · rw [rank_eq_of_deduped req d dd hd hties] at hresp
      by_cases hfloor : d.score < req.params.confidence_floor
      · rw [if_pos hfloor] at hresp
        cases hresp
        exact ⟨fun _ => rfl, fun hnot => absurd hfloor hnot⟩
      · rw [if_neg hfloor] at hresp
        refine ⟨fun hfl => absurd hfl hfloor, fun _ => ?_⟩
        rcases hmap : mapOption (mkRankedItem req.query) (chosenOf req) with _ | ⟨_ | ⟨i, rest⟩⟩
        · rw [hmap] at hresp
          exact Option.noConfusion hresp
        · rw [hmap] at hresp
          exact Option.noConfusion hresp
        · rw [hmap] at hresp
          cases hresp
          exact ⟨rfl, fun h => Option.noConfusion h⟩
    · rw [rank_eq_none_of_ties req (candidates_ne_nil_of_deduped req d dd hd)
        (keptOf_ne_nil_of_deduped req d dd hd) hties] at hresp
      exact Option.noConfusion hresp

/-- Witness for C3: the claim applied at the concrete request `reqW`. -/
theorem C3_witness :
    match dedupedOf reqW with
    | [] => True
    | d :: _ =>
        (∀ s ∈ dedupedOf reqW, s.score ≤ d.score) ∧
        ∀ resp, rank reqW = some resp →
          ((d.score < reqW.params.confidence_floor →
              resp = ⟨true, some "low_confidence", none, []⟩) ∧
            (¬ d.score < reqW.params.confidence_floor →
              resp.abstain = false ∧ resp.best ≠ none)) :=
  C3_confidence_floor reqW

/-! ### C8: determinism -/

/-- C8: `rank` is deterministic — identical requests produce identical
responses, component for component (abstain flag, reason, best, ordered
alternates with their rounded scores, features and reasons). -/
theorem C8_deterministic (r1 r2 : RankRequest) (h : r1 = r2) :
    rank r1 = rank r2 ∧
      ∀ a b, rank r1 = some a → rank r2 = some b →
        a.abstain = b.abstain ∧ a.reason = b.reason ∧ a.best = b.best ∧
          a.alternates = b.alternates := by
  subst h
  refine ⟨rfl, ?_⟩
  intro a b ha hb
  rw [ha] at hb
  cases hb
  exact ⟨rfl, rfl, rfl, rfl⟩

/-- Witness for C8 at the concrete request `reqW`. -/
theorem C8_witness :
    rank reqW = rank reqW ∧
      ∀ a b, rank reqW = some a → rank reqW = some b →
        a.abstain = b.abstain ∧ a.reason = b.reason ∧ a.best = b.best ∧
          a.alternates = b.alternates :=
  C8_deterministic reqW reqW rfl

/-! ### C9 and C10: dedup groups -/

lemma keepOf_nil (params : RankParams) (items : List Scored)
    (hs : sortDesc ltLexScored items = []) : keepOf params items = [] := by
  rw [keepOf, hs]

lemma keepOf_cons_none (params : RankParams) (items : List Scored) (p : Scored)
    (rest : List Scored) (hs : sortDesc ltLexScored items = p :: rest)
    (hf : rest.find? (allowedB params p) = none) : keepOf params items = [p] := by
  rw [keepOf, hs]
  show p :: (rest.find? (allowedB params p)).toList = _
  rw [hf]
  rfl

lemma keepOf_cons_some (params : RankParams) (items : List Scored) (p a : Scored)
    (rest : List Scored) (hs : sortDesc ltLexScored items = p :: rest)
    (hf : rest.find? (allowedB params p) = some a) : keepOf params items = [p, a] := by
  rw [keepOf, hs]
  show p :: (rest.find? (allowedB params p)).toList = _
  rw [hf]
  rfl

/-- C9: a candidate with a null `resolutionDepth` is never kept as the
allowed repeat of a dedup group — even with `allow_repeat_depth = 0` and a
satisfied age condition, the null short-circuits — so from its group only
the primary plus possibly one non-null repeat is emitted. -/
theorem C9_null_depth_never_repeat (params : RankParams) (items : List Scored) :
    match keepOf params items with
    | [] => True
    | [_] => True
    | p :: a :: rest =>
        rest = [] ∧ a.cand.resolutionDepth ≠ none ∧
          ∃ d, a.cand.resolutionDepth = some d ∧ params.allow_repeat_depth ≤ d ∧
            params.allow_repeat_min_hours ≤
              hours_between p.cand.timestamp a.cand.timestamp := by
  rcases hs : sortDesc ltLexScored items with _ | ⟨p', rest'⟩
  · rw [keepOf_nil params items hs]
    trivial
  · cases hf : rest'.find? (allowedB params p') with
    | none =>
        rw [keepOf_cons_none params items p' rest' hs hf]
        trivial
    | some a' =>
        rw [keepOf_cons_some params items p' a' rest' hs hf]
        have hpred := List.find?_some hf
        cases hdep : a'.cand.resolutionDepth with
        | none =>
            simp only [allowedB, hdep] at hpred
            exact Bool.noConfusion hpred
        | some d =>
            simp only [allowedB, hdep, Bool.and_eq_true] at hpred
            exact ⟨rfl, by rw [hdep]; exact fun h => Option.noConfusion h,
              d, hdep, of_decide_eq_true hpred.1, of_decide_eq_true hpred.2⟩

/-- C10: empty `activeFile_hash` values share the dedup key (the `or ""`
keeps the empty string), every dedup group emits at most two items, while
MMR inter-candidate similarity treats an empty hash as non-matching. -/
theorem C10_empty_hash (c1 c2 : Candidate) (a b : Scored) (params : RankParams)
    (items : List Scored)
    (h1 : c1.activeFile_hash = "") (h2 : c2.activeFile_hash = "")
    (hsk : norm_text c1.pemSkeleton = norm_text c2.pemSkeleton)
    (ha : a.cand.activeFile_hash = "") :
    dedup_key c1 = dedup_key c2 ∧
      candidate_similarity a b =
        (if norm_text a.cand.pemSkeleton = norm_text b.cand.pemSkeleton then 0.8
         else jaccard a.cand.packages b.cand.packages) ∧
      (keepOf params items).length ≤ 2 := by
  refine ⟨?_, ?_, ?_⟩
  · rw [dedup_key, dedup_key, hsk, h1, h2]
  · rw [candidate_similarity, if_neg fun hcon => hcon.1 ha]
  · rcases hs : sortDesc ltLexScored items with _ | ⟨p', rest'⟩
    · rw [keepOf_nil params items hs]
      simp
    · cases hf : rest'.find? (allowedB params p') with
      | none =>
          rw [keepOf_cons_none params items p' rest' hs hf]
          simp
      | some a' =>
          rw [keepOf_cons_some params items p' a' rest' hs hf]
          simp

/-- Witness for C10 at two concrete empty-hash candidates. -/
theorem C10_witness :
    dedup_key cE1 = dedup_key cE2 ∧
      candidate_similarity sE sA =
        (if norm_text sE.cand.pemSkeleton = norm_text sA.cand.pemSkeleton then 0.8
         else jaccard sE.cand.packages sA.cand.packages) ∧
      (keepOf paramsW [sA, sB]).length ≤ 2 :=
  C10_empty_hash cE1 cE2 sE sA paramsW [sA, sB] (by decide) (by decide) (by decide)
    (by decide)

/-! ### C2: the dedup invariant -/

lemma dedupedOf_eq (req : RankRequest) :
    dedupedOf req =
      sortDesc scoreLt (((groupsAt req).map fun g => keepOf req.params g.2).flatten) := rfl

lemma lookup_of_mem_keys_nodup {β : Type} (l : List ((String × String) × β))
    (g : (String × String) × β) (hnd : (l.map (·.1)).Nodup) (hg : g ∈ l) :
    l.lookup g.1 = some g.2 := by
  induction l with
  | nil => exact absurd hg (List.not_mem_nil g)
  | cons h rest ih =>
      rcases h with ⟨k, v⟩
      rcases List.mem_cons.mp hg with rfl | hg
      · simp [List.lookup]
      · simp only [List.map_cons, List.nodup_cons] at hnd
        have hne : g.1 ≠ k := by
          intro he
          exact hnd.1 (he ▸ List.mem_map.mpr ⟨g, hg, rfl⟩)
        simp only [List.lookup, beq_eq_false_iff_ne.mpr hne]
        exact ih hnd.2 hg

lemma mem_dedupedOf_iff (req : RankRequest) (s : Scored) :
    s ∈ dedupedOf req ↔ ∃ g ∈ groupsAt req, s ∈ keepOf req.params g.2 := by
  rw [dedupedOf_eq]
  constructor
  · intro h
    obtain ⟨l, hl, hsl⟩ := List.mem_flatten.mp ((sortDesc_perm scoreLt _).mem_iff.mp h)
    obtain ⟨g, hg, rfl⟩ := List.mem_map.mp hl
    exact ⟨g, hg, hsl⟩
  · rintro ⟨g, hg, hsg⟩
    exact (sortDesc_perm scoreLt _).mem_iff.mpr
      (List.mem_flatten.mpr ⟨_, List.mem_map.mpr ⟨g, hg, rfl⟩, hsg⟩)

lemma keep_key (req : RankRequest) (g : (String × String) × List Scored)
    (hg : g ∈ groupsAt req) (s : Scored) (hs : s ∈ keepOf req.params g.2) :
    dedup_key s.cand = g.1 :=
  groupsOf_key_inv (nonnegOf req) g hg s ((keepOf_subperm _ _).subset hs)

open Classical in
lemma count_flatten_le_aux (params : RankParams) (v : Scored)
    (gs : (String × String) × List Scored) :
    ∀ (groups : List ((String × String) × List Scored)),
      (groups.map (·.1)).Nodup → gs ∈ groups →
      (∀ g ∈ groups, v ∈ keepOf params g.2 → g = gs) →
      ((groups.map fun g => keepOf params g.2).flatten).count v ≤
        (keepOf params gs.2).count v := by
  classical
  intro groups
  induction groups with
  | nil => intro _ h; exact absurd h (List.not_mem_nil _)
  | cons g rest ih =>
      intro hnd hmem hconf
      simp only [List.map_cons, List.flatten_cons, List.count_append]
      rcases List.mem_cons.mp hmem with rfl | hmem
      · have hrest : ((rest.map fun g => keepOf params g.2).flatten).count v = 0 := by
          rw [List.count_eq_zero]
          intro hv
          obtain ⟨l, hl, hvl⟩ := List.mem_flatten.mp hv
          obtain ⟨g', hg', rfl⟩ := List.mem_map.mp hl
          have hgg := hconf g' (List.mem_cons_of_mem _ hg') hvl
          subst hgg
          simp only [List.map_cons, List.nodup_cons] at hnd
          exact hnd.1 (List.mem_map.mpr ⟨g', hg', rfl⟩)
        rw [hrest]
        omega
      · by_cases hg : v ∈ keepOf params g.2
        · have hgg := hconf g (List.mem_cons_self _ _) hg
          subst hgg
          simp only [List.map_cons, List.nodup_cons] at hnd
          exact (hnd.1 (List.mem_map.mpr ⟨g, hmem, rfl⟩)).elim
        · have hz : (keepOf params g.2).count v = 0 := List.count_eq_zero.mpr hg
          rw [hz]
          simp only [List.map_cons, List.nodup_cons] at hnd
          simpa using ih hnd.2 hmem fun g' hg' => hconf g' (List.mem_cons_of_mem _ hg')

lemma pair_sublist {α : Type} :
    ∀ (l : List α) (i j : Nat) (hi : i < l.length) (hj : j < l.length), i < j →
      [l[i], l[j]] <+ l := by
  intro l
  induction l with
  | nil => intro i j hi hj hij; simp at hj
  | cons a as ih =>
      intro i j hi hj hij
      cases i with
      | zero =>
          cases j with
          | zero => omega
          | succ j1 =>
              simp only [List.getElem_cons_zero, List.getElem_cons_succ]
              exact (List.singleton_sublist.mpr (List.getElem_mem _)).cons₂ a
      | succ i1 =>
          cases j with
          | zero => omega
          | succ j1 =>
              simp only [List.getElem_cons_succ]
              exact (ih i1 j1 (by simpa using hi) (by simpa using hj) (by omega)).cons _

lemma two_le_count_of_getElem {α : Type} [DecidableEq α] (l : List α) (i j : Nat)
    (hi : i < l.length) (hj : j < l.length) (hij : i < j) (he : l[i] = l[j]) :
    2 ≤ l.count l[i] := by
  have hcount := (pair_sublist l i j hi hj hij).count_le l[i]
  rw [← he] at hcount
  simpa using hcount

/-- C2: no two emitted items (best plus alternates, i.e. the members of
`chosenOf`) share a normalized skeleton and a non-empty file hash, except a
primary together with the one allowed repeat of its group — an item with a
non-null `resolutionDepth` at least `allow_repeat_depth` that is at least
`allow_repeat_min_hours` older than the primary, the primary being maximal
in the group under `(score, timestamp)`. -/
theorem C2_dedup_invariant (req : RankRequest) :
    (chosenOf req).Pairwise fun s t =>
      norm_text s.cand.pemSkeleton = norm_text t.cand.pemSkeleton →
      s.cand.activeFile_hash = t.cand.activeFile_hash →
      s.cand.activeFile_hash ≠ "" →
      ∃ p a, keepAt req (dedup_key s.cand) = [p, a] ∧
        (s = p ∨ s = a) ∧ (t = p ∨ t = a) ∧
        (∃ d, a.cand.resolutionDepth = some d ∧ req.params.allow_repeat_depth ≤ d ∧
          req.params.allow_repeat_min_hours ≤
            hours_between p.cand.timestamp a.cand.timestamp) ∧
        ∀ x ∈ groupItemsAt req (dedup_key s.cand), ¬ ltLexScored p x := by
  classical
  rw [List.pairwise_iff_getElem]
  intro i j hi hj hij hsk hh hne
  set s := (chosenOf req)[i] with hsdef
  set t := (chosenOf req)[j] with htdef
  have hsmem : s ∈ chosenOf req := List.getElem_mem hi
  have htmem : t ∈ chosenOf req := List.getElem_mem hj
  have hkey : dedup_key s.cand = dedup_key t.cand := by
    rw [dedup_key, dedup_key, hsk, hh]
  obtain ⟨gs, hgs, hskeep⟩ := (mem_dedupedOf_iff req s).mp ((chosenOf_subperm req).subset hsmem)
  obtain ⟨gt, hgt, htkeep⟩ := (mem_dedupedOf_iff req t).mp ((chosenOf_subperm req).subset htmem)
  have hgseq : gt = gs := by
    apply List.inj_on_of_nodup_map (groupsOf_keys_nodup (nonnegOf req)) hgt hgs
    rw [← keep_key req gt hgt t htkeep, ← keep_key req gs hgs s hskeep, hkey]
  subst hgseq
  have hkeyg : dedup_key s.cand = gt.1 := keep_key req gt hgt s hskeep
  have hitems : groupItemsAt req (dedup_key s.cand) = gt.2 := by
    rw [groupItemsAt, hkeyg,
      lookup_of_mem_keys_nodup (groupsAt req) gt (groupsOf_keys_nodup _) hgt]
    rfl
  rcases hsort : sortDesc ltLexScored gt.2 with _ | ⟨p1, rest1⟩
  · rw [keepOf_nil _ _ hsort] at hskeep
    exact absurd hskeep (List.not_mem_nil s)
  cases hf : rest1.find? (allowedB req.params p1) with
  | none =>
      have hsp : s = p1 := by
        have := hskeep
        rw [keepOf_cons_none _ _ _ _ hsort hf] at this
        simpa using this
      have htp : t = p1 := by
        have := htkeep
        rw [keepOf_cons_none _ _ _ _ hsort hf] at this
        simpa using this
      have he : (chosenOf req)[i] = (chosenOf req)[j] := by
        rw [← hsdef, ← htdef, hsp, htp]
      have h2c : 2 ≤ (chosenOf req).count s := by
        have := two_le_count_of_getElem (chosenOf req) i j hi hj hij he
        rwa [← hsdef] at this
      have hchain : (chosenOf req).count s ≤ (keepOf req.params gt.2).count s := by
        refine le_trans ((chosenOf_subperm req).count_le s) ?_
        have hperm : (dedupedOf req).count s =
            ((((groupsAt req).map fun g => keepOf req.params g.2).flatten)).count s := by
          rw [dedupedOf_eq req]
          exact (sortDesc_perm scoreLt _).count_eq s
        rw [hperm]
        apply count_flatten_le_aux req.params s gt (groupsAt req) (groupsOf_keys_nodup _) hgt
        intro g hg hvg
        apply List.inj_on_of_nodup_map (groupsOf_keys_nodup (nonnegOf req)) hg hgt
        rw [← keep_key req g hg s hvg, ← keep_key req gt hgt s hskeep]
      have hone : (keepOf req.params gt.2).count s ≤ 1 := by
        rw [keepOf_cons_none _ _ _ _ hsort hf]
        by_cases hps : p1 = s <;> simp [List.count_cons, hps]
      omega
  | some a1 =>
      have hsmem2 : s = p1 ∨ s = a1 := by
        have := hskeep
        rw [keepOf_cons_some _ _ _ _ _ hsort hf] at this
        simpa using this
      have htmem2 : t = p1 ∨ t = a1 := by
        have := htkeep
        rw [keepOf_cons_some _ _ _ _ _ hsort hf] at this
        simpa using this
      refine ⟨p1, a1, ?_, hsmem2, htmem2, ?_, ?_⟩
      · rw [keepAt, hitems, keepOf_cons_some _ _ _ _ _ hsort hf]
      · have hpred := List.find?_some hf
        cases hdep : a1.cand.resolutionDepth with
        | none =>
            simp only [allowedB, hdep] at hpred
            exact Bool.noConfusion hpred
        | some d =>
            simp only [allowedB, hdep, Bool.and_eq_true] at hpred
            exact ⟨d, rfl, of_decide_eq_true hpred.1, of_decide_eq_true hpred.2⟩
      · rw [hitems]
        exact sortDesc_head_max ltLexScored ltLexScored_trans ltLexScored_irrefl gt.2 p1
          rest1 hsort

/-- Witness for C2: the claim applied at the concrete request `reqW`. -/
theorem C2_witness :
    (chosenOf reqW).Pairwise fun s t =>
      norm_text s.cand.pemSkeleton = norm_text t.cand.pemSkeleton →
      s.cand.activeFile_hash = t.cand.activeFile_hash →
      s.cand.activeFile_hash ≠ "" →
      ∃ p a, keepAt reqW (dedup_key s.cand) = [p, a] ∧
        (s = p ∨ s = a) ∧ (t = p ∨ t = a) ∧
        (∃ d, a.cand.resolutionDepth = some d ∧ reqW.params.allow_repeat_depth ≤ d ∧
          reqW.params.allow_repeat_min_hours ≤
            hours_between p.cand.timestamp a.cand.timestamp) ∧
        ∀ x ∈ groupItemsAt reqW (dedup_key s.cand), ¬ ltLexScored p x :=
  C2_dedup_invariant reqW

/-! ### Evaluation of the concrete requests `reqW` and `req5` -/

lemma subperm_map {α β : Type} (f : α → β) {l₁ l₂ : List α} (h : l₁ <+~ l₂) :
    l₁.map f <+~ l₂.map f := by
  obtain ⟨u, hu, hsu⟩ := h
  exact ⟨u.map f, hu.map f, hsu.map f⟩

lemma score_candidate_nonneg_of_uninf (q : QueryContext) (c : Candidate) (p : RankParams)
    (h : skeleton_informative q.pemSkeleton = false) :
    0 ≤ (score_candidate q c p).score := by
  rw [score_candidate]
  have hcond : ¬ ((compute_features q c p).skeleton < p.skeleton_filter_threshold ∧
      skeleton_informative q.pemSkeleton = true) := by
    rintro ⟨-, h2⟩
    rw [h] at h2
    exact Bool.noConfusion h2
  rw [if_neg hcond]
  exact le_max_left 0 _

lemma reliability_congr (f : FeatureMap) (q : QueryContext) (c1 c2 : Candidate)
    (hw : c1.workingDirectory_hash = c2.workingDirectory_hash) :
    reliability_multipliers f q c1 = reliability_multipliers f q c2 := by
  rw [reliability_multipliers, reliability_multipliers, hw]

lemma score_candidate_score_congr (q : QueryContext) (p : RankParams) (c1 c2 : Candidate)
    (hf : compute_features q c1 p = compute_features q c2 p)
    (hw : c1.workingDirectory_hash = c2.workingDirectory_hash)
    (hd : c1.resolutionDepth = c2.resolutionDepth) :
    (score_candidate q c1 p).score = (score_candidate q c2 p).score := by
  rw [score_candidate, score_candidate]
  simp only [apply_ite Scored.score, hf, hd,
    reliability_congr (compute_features q c2 p) q c1 c2 hw]

lemma s1W_cand : s1W.cand = cW1 := score_candidate_cand qW cW1 paramsW

lemma s2W_cand : s2W.cand = cW2 := score_candidate_cand qW cW2 paramsW

lemma s5W_cand : s5W.cand = c5 := score_candidate_cand qW c5 params5

lemma s1W_id : s1W.id = "dup" := score_candidate_id qW cW1 paramsW

lemma s2W_id : s2W.id = "dup" := score_candidate_id qW cW2 paramsW

lemma s1W_nonneg : 0 ≤ s1W.score :=
  score_candidate_nonneg_of_uninf qW cW1 paramsW (by decide)

lemma s2W_nonneg : 0 ≤ s2W.score :=
  score_candidate_nonneg_of_uninf qW cW2 paramsW (by decide)

lemma s5W_nonneg : 0 ≤ s5W.score :=
  score_candidate_nonneg_of_uninf qW c5 params5 (by decide)

lemma s1W_s2W_score : s1W.score = s2W.score :=
  score_candidate_score_congr qW paramsW cW1 cW2 rfl rfl rfl

lemma tiesOK_singletons (groups : List ((String × String) × List Scored))
    (h : ∀ g ∈ groups, ∃ x, g.2 = [x]) : tiesOK groups := by
  intro g hg a ha b hb _
  obtain ⟨x, hx⟩ := h g hg
  rw [hx] at ha hb
  rw [List.mem_singleton.mp ha, List.mem_singleton.mp hb]

lemma keptOf_reqW : keptOf reqW = [s1W, s2W] := by
  rw [keptOf, show scoredOf reqW = [s1W, s2W] from rfl]
  rw [List.filter_cons, if_pos (decide_eq_true s1W_nonneg),
    List.filter_cons, if_pos (decide_eq_true s2W_nonneg), List.filter_nil]

lemma nonnegOf_reqW : nonnegOf reqW = [s1W, s2W] := by
  have hb1 : (!decide (s1W.score < 0)) = true := by
    rw [decide_eq_false (not_lt.mpr s1W_nonneg)]
    rfl
  have hb2 : (!decide (s2W.score < 0)) = true := by
    rw [decide_eq_false (not_lt.mpr s2W_nonneg)]
    rfl
  rw [nonnegOf, keptOf_reqW, List.filter_cons, if_pos hb1,
    List.filter_cons, if_pos hb2, List.filter_nil]

lemma dedup_key_cW1 : dedup_key cW1 = ("x", "h2") := by decide

lemma dedup_key_cW2 : dedup_key cW2 = ("x", "h3") := by decide

lemma groupsAt_reqW : groupsAt reqW = [(("x", "h2"), [s1W]), (("x", "h3"), [s2W])] := by
  rw [groupsAt, nonnegOf_reqW, groupsOf]
  simp only [List.foldl_cons, List.foldl_nil]
  rw [s1W_cand, s2W_cand, dedup_key_cW1, dedup_key_cW2]
  rfl

lemma tiesOK_reqW : tiesOK (groupsAt reqW) := by
  rw [groupsAt_reqW]
  apply tiesOK_singletons
  intro g hg
  rcases List.mem_cons.mp hg with rfl | hg2
  · exact ⟨s1W, rfl⟩
  rcases List.mem_cons.mp hg2 with rfl | hg3
  · exact ⟨s2W, rfl⟩
  exact absurd hg3 (List.not_mem_nil g)

lemma sort2W : sortDesc scoreLt [s1W, s2W] = [s1W, s2W] := by
  have hnlt : ¬ scoreLt s1W s2W := by
    intro h
    rw [scoreLt, s1W_s2W_score] at h
    exact lt_irrefl _ h
  show (if scoreLt s1W s2W then s2W :: s1W :: [] else s1W :: insertDesc scoreLt s2W []) =
    [s1W, s2W]
  rw [if_neg hnlt]
  rfl

lemma dedupedOf_reqW : dedupedOf reqW = [s1W, s2W] := by
  rw [dedupedOf_eq, groupsAt_reqW]
  exact sort2W

lemma kOf_reqW : kOf reqW = 2 := by
  rw [kOf, dedupedOf_reqW]
  decide

lemma fst_ite_eq {c : Prop} [Decidable c] (n : ℕ) (x y : ℝ) :
    ((if c then (n, x) else (n, y)) : ℕ × ℝ).1 = n := by
  split <;> rfl

lemma argmax_reqW : (argmaxAux reqW.params.mmr_lambda [s1W] [s2W]).1 = 0 := by
  show (if (-1000000000 : ℝ) < mmrVal reqW.params.mmr_lambda [s1W] s2W
        then ((0 : ℕ), mmrVal reqW.params.mmr_lambda [s1W] s2W)
        else ((0 : ℕ), (-1000000000 : ℝ))).1 = 0
  exact fst_ite_eq 0 _ _

lemma mmr_reqW : mmr_select [s1W, s2W] 2 reqW.params.mmr_lambda = [s1W, s2W] := by
  show (match popAt [s2W] (argmaxAux reqW.params.mmr_lambda [s1W] [s2W]).1 with
        | some (x, rest) => mmr_go reqW.params.mmr_lambda 2 0 ([s1W] ++ [x]) rest
        | none => [s1W]) = [s1W, s2W]
  rw [argmax_reqW]
  rfl

lemma chosenOf_reqW : chosenOf reqW = [s1W, s2W] := by
  rw [chosenOf, dedupedOf_reqW, kOf_reqW, mmr_reqW]
  exact sort2W

lemma mkRankedItem_some (q : QueryContext) (s : Scored) (dt : ℚ)
    (h : tsub q.timestamp s.cand.timestamp = some dt) :
    ∃ r, mkRankedItem q s = some r ∧ r.id = s.id := by
  rw [mkRankedItem, reasons_for, h]
  exact ⟨_, rfl, rfl⟩

lemma rank_reqW_ids :
    (rank reqW).map (fun r =>
      (r.abstain, r.best.map RankedItem.id, r.alternates.map RankedItem.id)) =
      some (false, some "dup", ["dup"]) := by
  obtain ⟨r1, hr1, hid1⟩ := mkRankedItem_some reqW.query s1W (0 - 0) (by rw [s1W_cand]; rfl)
  obtain ⟨r2, hr2, hid2⟩ := mkRankedItem_some reqW.query s2W (0 - 0) (by rw [s2W_cand]; rfl)
  have hm : mapOption (mkRankedItem reqW.query) (chosenOf reqW) = some [r1, r2] := by
    rw [chosenOf_reqW]
    simp only [mapOption]
    rw [hr1, hr2]
  have hfloor : ¬ s1W.score < reqW.params.confidence_floor := not_lt.mpr s1W_nonneg
  have hrank : rank reqW = some ⟨false, none, some r1, [r2]⟩ := by
    rw [rank_eq_of_deduped reqW s1W [s2W] dedupedOf_reqW tiesOK_reqW, if_neg hfloor, hm]
  rw [hrank]
  simp only [Option.map_some, Option.map, List.map_cons, List.map_nil]
  rw [hid1, hid2, s1W_id, s2W_id]

lemma keptOf_req5 : keptOf req5 = [s5W] := by
  rw [keptOf, show scoredOf req5 = [s5W] from rfl]
  rw [List.filter_cons, if_pos (decide_eq_true s5W_nonneg), List.filter_nil]

lemma nonnegOf_req5 : nonnegOf req5 = [s5W] := by
  have hb : (!decide (s5W.score < 0)) = true := by
    rw [decide_eq_false (not_lt.mpr s5W_nonneg)]
    rfl
  rw [nonnegOf, keptOf_req5, List.filter_cons, if_pos hb, List.filter_nil]

lemma dedup_key_c5 : dedup_key c5 = ("x", "h1") := by decide

lemma groupsAt_req5 : groupsAt req5 = [(("x", "h1"), [s5W])] := by
  rw [groupsAt, nonnegOf_req5, groupsOf]
  simp only [List.foldl_cons, List.foldl_nil]
  rw [s5W_cand, dedup_key_c5]
  rfl

lemma tiesOK_req5 : tiesOK (groupsAt req5) := by
  rw [groupsAt_req5]
  apply tiesOK_singletons
  intro g hg
  rcases List.mem_cons.mp hg with rfl | hg2
  · exact ⟨s5W, rfl⟩
  exact absurd hg2 (List.not_mem_nil g)

lemma dedupedOf_req5 : dedupedOf req5 = [s5W] := by
  rw [dedupedOf_eq, groupsAt_req5]
  rfl

lemma kOf_req5 : kOf req5 = 1 := by
  rw [kOf, dedupedOf_req5]
  decide

lemma chosenOf_req5 : chosenOf req5 = [s5W] := by
  rw [chosenOf, dedupedOf_req5, kOf_req5]
  rfl

lemma mkRankedItem_s5W : mkRankedItem req5.query s5W = none := by
  rw [mkRankedItem, reasons_for, s5W_cand]
  rfl

/-- C5: the claim is false of the code — `rank` is not total on schema-valid
requests.  On `req5`, whose query timestamp is timezone-aware and whose only
candidate's timestamp is naive, `reasons_for` subtracts the naive from the
aware datetime without the UTC fixup the feature extractors apply, raising
`TypeError`; the model returns `none`. -/
theorem C5_mixed_timezone_raises : reqValid req5 ∧ rank req5 = none := by
  constructor
  · refine ⟨?_, ?_, ?_⟩
    · show paramsValid params5
      simp only [paramsValid, params5]
      norm_num
    · intro d h
      exact Option.noConfusion h
    · intro c hc
      rcases List.mem_cons.mp hc with rfl | hc2
      · refine ⟨?_, ?_, ?_⟩
        · show (0 : ℝ) ≤ 1
          norm_num
        · show (1 : ℝ) ≤ 1
          norm_num
        · intro d h
          exact Option.noConfusion h
      · exact absurd hc2 (List.not_mem_nil c)
  · rw [rank_eq_of_deduped req5 s5W [] dedupedOf_req5 tiesOK_req5,
      if_neg (show ¬ s5W.score < req5.params.confidence_floor from not_lt.mpr s5W_nonneg)]
    have hmap : mapOption (mkRankedItem req5.query) (chosenOf req5) = none := by
      rw [chosenOf_req5]
      simp only [mapOption]
      rw [mkRankedItem_s5W]
    rw [hmap]

/-! ### C6: distinct output ids -/

lemma mkRankedItem_id (q : QueryContext) (s : Scored) (r : RankedItem)
    (h : mkRankedItem q s = some r) : r.id = s.id := by
  rw [mkRankedItem] at h
  rcases ht : reasons_for q s with _ | rs
  · rw [ht] at h
    exact Option.noConfusion h
  · rw [ht] at h
    injection h with h
    rw [← h]

lemma mapOption_ids (q : QueryContext) :
    ∀ (l : List Scored) (ys : List RankedItem),
      mapOption (mkRankedItem q) l = some ys →
      ys.map RankedItem.id = l.map Scored.id := by
  intro l
  induction l with
  | nil =>
      intro ys h
      simp only [mapOption, Option.some.injEq] at h
      subst h
      rfl
  | cons x xs ih =>
      intro ys h
      simp only [mapOption] at h
      rcases hfx : mkRankedItem q x with _ | y
      · rcases hrest : mapOption (mkRankedItem q) xs with _ | ys2 <;>
          rw [hfx, hrest] at h <;> exact Option.noConfusion h
      · rcases hrest : mapOption (mkRankedItem q) xs with _ | ys2
        · rw [hfx, hrest] at h
          exact Option.noConfusion h
        · rw [hfx, hrest] at h
          injection h with h
          subst h
          have hyid : y.id = x.id := mkRankedItem_id q x y hfx
          simp only [List.map_cons, ih ys2 hrest, hyid]

lemma scoredOf_map_id (req : RankRequest) :
    (scoredOf req).map Scored.id = req.candidates.map Candidate.id := by
  rw [scoredOf, List.map_map]
  apply List.map_congr_left
  intro c hc
  exact score_candidate_id req.query c req.params

/-- C6 (amended): when the request's candidate ids are pairwise distinct,
`best.id` differs from every alternate's id.  (As stated over requests with
duplicate ids the claim is false: see the counterexample, where two distinct
candidates share an id and both reach the output.) -/
theorem C6_distinct_ids (req : RankRequest) :
    (req.candidates.map Candidate.id).Nodup →
    match rank req with
    | some resp =>
        match resp.best with
        | some b => ∀ a ∈ resp.alternates, b.id ≠ a.id
        | none => True
    | none => True := by
  intro hnd
  rcases hr : rank req with _ | resp
  · trivial
  · show match resp.best with
      | some b => ∀ a ∈ resp.alternates, b.id ≠ a.id
      | none => True
    rcases rank_cases req resp hr with ⟨-, hbest, -⟩ | ⟨i, rest, hmap, -, hbest, halt⟩
    · rw [hbest]
      trivial
    · rw [hbest, halt]
      intro a ha hia
      have hids : ((i :: rest).map RankedItem.id).Nodup := by
        rw [mapOption_ids req.query (chosenOf req) (i :: rest) hmap]
        have hsub : chosenOf req <+~ scoredOf req :=
          ((chosenOf_subperm req).trans (dedupedOf_subperm req)).trans
            (nonnegOf_sublist req).subperm
        have hnd2 : ((scoredOf req).map Scored.id).Nodup := by
          rw [scoredOf_map_id]
          exact hnd
        exact subperm_nodup (subperm_map Scored.id hsub) hnd2
      simp only [List.map_cons, List.nodup_cons] at hids
      apply hids.1
      rw [hia]
      exact List.mem_map.mpr ⟨a, ha, rfl⟩

/-- Witness for C6 at `reqF`, whose candidate ids are pairwise distinct. -/
theorem C6_witness :
    (reqF.candidates.map Candidate.id).Nodup ∧
    (match rank reqF with
     | some resp =>
         match resp.best with
         | some b => ∀ a ∈ resp.alternates, b.id ≠ a.id
         | none => True
     | none => True) :=
  ⟨by decide, C6_distinct_ids reqF (by decide)⟩

/-- Counterexample to C6 as stated: `reqW` is schema-valid and its two
distinct candidates share the id `dup`; the response does not abstain, yet
`best.id = "dup"` also appears among the alternates' ids. -/
theorem C6_duplicate_id_counterexample :
    reqValid reqW ∧ cW1 ≠ cW2 ∧ cW1.id = cW2.id ∧
    (rank reqW).map (fun r =>
      (r.abstain, r.best.map RankedItem.id, r.alternates.map RankedItem.id)) =
      some (false, some "dup", ["dup"]) := by
  refine ⟨⟨?_, ?_, ?_⟩, ?_, rfl, rank_reqW_ids⟩
  · show paramsValid paramsW
    simp only [paramsValid, paramsW]
    norm_num
  · intro d h
    exact Option.noConfusion h
  · intro c hc
    have hcv : candValid cW1 := by
      refine ⟨?_, ?_, ?_⟩
      · show (0 : ℝ) ≤ 1
        norm_num
      · show (1 : ℝ) ≤ 1
        norm_num
      · intro d h
        exact Option.noConfusion h
    have hcv2 : candValid cW2 := by
      refine ⟨?_, ?_, ?_⟩
      · show (0 : ℝ) ≤ 1
        norm_num
      · show (1 : ℝ) ≤ 1
        norm_num
      · intro d h
        exact Option.noConfusion h
    rcases List.mem_cons.mp hc with rfl | hc2
    · exact hcv
    rcases List.mem_cons.mp hc2 with rfl | hc3
    · exact hcv2
    exact absurd hc3 (List.not_mem_nil c)
  · intro h
    exact absurd (congrArg Candidate.activeFile_hash h) (by decide)

end IRA
